import Mathlib

/-!
Verification of the Encrypted Persistence & Backup Engine of
`v21_encrpt.py` (Secure Finance Tracker v21).

The Python source is shallowly embedded below.  Authenticated symmetric
encryption (Fernet) is modelled by a free constructor carrying the key and
the per-call nonce: decryption succeeds exactly on a token produced under
the same key and returns its payload, mirroring Fernet's
authenticate-then-decrypt behaviour (any non-token byte string, and any
token under a different key, raises `InvalidToken`, modelled as `none`).
File contents and plaintexts live in the same universe `FData`, since in
the source both are byte/character strings.
-/

/-- Universe of stored strings / byte blobs: either raw data or a Fernet
token produced under a given key with a given nonce.  A token's string
form is never the empty string (a real Fernet token always begins with a
version byte), which `isEmptyStr` reflects. -/
inductive FData where
  | raw (s : String)
  | token (key nonce : Nat) (payload : FData)
deriving DecidableEq, Repr

/-- `CIPHER.encrypt`: authenticated encryption of `p` under `key` with the
fresh random `nonce` drawn for this call. -/
def fernetEncrypt (key nonce : Nat) (p : FData) : FData :=
  FData.token key nonce p

/-- `CIPHER.decrypt`: authenticated decryption.  Succeeds exactly on a
token made under the same key, returning its payload; every other input
(raw bytes, token under another key) raises `InvalidToken`, modelled as
`none`. -/
def fernetDecrypt (key : Nat) : FData → Option FData
  | FData.raw _ => none
  | FData.token k _ p => if k = key then some p else none

/-- The Python `s == ""` test on a stored value: only the raw empty string
is empty; a Fernet token is never the empty string. -/
def isEmptyStr : FData → Bool
  | FData.raw s => s = ""
  | FData.token _ _ _ => false

/-- `enc_text` (v21_encrpt.py:180-183): field-level encryption.  `none`
models Python `None`.  Empty or absent input returns the empty string
without encrypting; otherwise the UTF-8 bytes are encrypted under the
process cipher. -/
def enc_text (key nonce : Nat) (s : Option FData) : FData :=
  match s with
  | none => FData.raw ""
  | some t =>
      if isEmptyStr t then FData.raw ""
      else fernetEncrypt key nonce t

/-- `dec_text` (v21_encrpt.py:185-192): field-level decryption.  Empty or
absent input returns the empty string; otherwise decryption is attempted
and on `InvalidToken` (or any failure) the stored value is returned
unchanged. -/
def dec_text (key : Nat) (s : Option FData) : FData :=
  match s with
  | none => FData.raw ""
  | some t =>
      if isEmptyStr t then FData.raw ""
      else
        match fernetDecrypt key t with
        | some p => p
        | none => t

/-!  Key store (`get_cipher`, v21_encrpt.py:144-172). -/

/-- Persistent key-material state: the salt file and the secret key file
(`some` = file exists with these bytes), plus the random bytes the OS
would supply if a file had to be created on this call
(`os.urandom(16)` / `Fernet.generate_key()`). -/
structure KeyState where
  saltFile : Option (List Nat)
  keyFile : Option (List Nat)
  freshSalt : List Nat
  freshKey : List Nat
deriving DecidableEq, Repr

/-- The symmetric key selected for the process: either derived from a
passphrase by PBKDF2-HMAC-SHA-256 over a salt with an iteration count, or
a random file key. -/
inductive FKey where
  | derived (passphrase : String) (salt : List Nat) (iterations : Nat)
  | file (k : List Nat)
deriving DecidableEq, Repr

/-- `_load_or_create_salt` (v21_encrpt.py:144-149): return the persisted
salt if the salt file exists, else create and persist a fresh random
salt. -/
def load_or_create_salt (st : KeyState) : List Nat × KeyState :=
  match st.saltFile with
  | some s => (s, st)
  | none => (st.freshSalt, { st with saltFile := some st.freshSalt })

/-- `_load_or_create_filekey` (v21_encrpt.py:155-160): return the
persisted key if the key file exists, else create and persist a fresh
random key. -/
def load_or_create_filekey (st : KeyState) : List Nat × KeyState :=
  match st.keyFile with
  | some k => (k, st)
  | none => (st.freshKey, { st with keyFile := some st.freshKey })

/-- `_derive_key_from_passphrase` (v21_encrpt.py:151-153):
PBKDF2-HMAC-SHA-256, 32-byte output, 390000 iterations, over the
load-or-created salt. -/
def derive_key_from_passphrase (passphrase : String) (st : KeyState) :
    FKey × KeyState :=
  let (salt, st') := load_or_create_salt st
  (FKey.derived passphrase salt 390000, st')

/-- Python's `str.isspace` character class used by `str.strip()`:
space, tab, newline, carriage return, vertical tab, form feed. -/
def pyIsSpace (c : Char) : Bool :=
  c = ' ' || c = '\t' || c = '\n' || c = '\r' || c = '\x0b' || c = '\x0c'

/-- The test `passphrase.strip() == ""`: stripping leading and trailing
whitespace leaves the empty string exactly when every character is
whitespace. -/
def isBlank (s : String) : Bool :=
  s.toList.all pyIsSpace

/-- `get_cipher` (v21_encrpt.py:162-170): read the optional environment
passphrase; a present-but-blank-after-strip passphrase is treated as
absent; a present non-blank passphrase selects PBKDF2 derivation, absence
selects the file key. -/
def get_cipher (env : Option String) (st : KeyState) : FKey × KeyState :=
  let passphrase : Option String :=
    match env with
    | some p => if isBlank p then none else some p
    | none => none
  match passphrase with
  | some p => derive_key_from_passphrase p st
  | none =>
      let (k, st') := load_or_create_filekey st
      (FKey.file k, st')

/-- Defining equation of `enc_text` on a present value. -/
theorem enc_text_some (key nonce : Nat) (t : FData) :
    enc_text key nonce (some t) =
      if isEmptyStr t then FData.raw "" else fernetEncrypt key nonce t := rfl

/-- Defining equation of `dec_text` on a present value. -/
theorem dec_text_some (key : Nat) (t : FData) :
    dec_text key (some t) =
      if isEmptyStr t then FData.raw ""
      else
        match fernetDecrypt key t with
        | some p => p
        | none => t := rfl

/-!  Claims about the field cipher and the key store. -/

/-- C2: for every stored string on which authenticated decryption fails
(tampered ciphertext, wrong key, or a value that was never encrypted),
`dec_text` returns the stored string unchanged instead of raising: it is a
total function whose result on such input is the input itself. -/
theorem C2_dec_text_fallback (key : Nat) (t : FData)
    (hfail : fernetDecrypt key t = none) :
    dec_text key (some t) = t := by
  cases t with
  | raw s =>
      by_cases h : s = ""
      · subst h
        simp [dec_text, isEmptyStr]
      · simp [dec_text, isEmptyStr, h, fernetDecrypt]
  | token k n p =>
      have hk : k ≠ key := by
        intro h
        simp [fernetDecrypt, h] at hfail
      simp [dec_text, isEmptyStr, fernetDecrypt, hk]

/-- Witness for C2: a raw stored string (legacy plaintext) fails
authenticated decryption and is returned unchanged, and a token sealed
under key 1 fails decryption under key 2 and is returned unchanged. -/
theorem C2_dec_text_fallback_witness :
    dec_text 0 (some (FData.raw "legacy plaintext")) =
      FData.raw "legacy plaintext" ∧
    dec_text 2 (some (FData.token 1 7 (FData.raw "note"))) =
      FData.token 1 7 (FData.raw "note") :=
  ⟨C2_dec_text_fallback 0 (FData.raw "legacy plaintext") (by decide),
   C2_dec_text_fallback 2 (FData.token 1 7 (FData.raw "note")) (by rfl)⟩

/-- C4: for every plaintext `t`, decrypting the encryption of `t` under
the same key returns `t` (round-trip), `enc_text` maps the empty string to
the empty string, and an absent field is likewise never encrypted. -/
theorem C4_roundtrip (key nonce : Nat) (t : FData) :
    dec_text key (some (enc_text key nonce (some t))) = t ∧
    enc_text key nonce (some (FData.raw "")) = FData.raw "" ∧
    enc_text key nonce none = FData.raw "" := by
  refine ⟨?_, by simp [enc_text, isEmptyStr], rfl⟩
  by_cases he : isEmptyStr t = true
  · cases t with
    | raw s =>
        have hs : s = "" := by simpa [isEmptyStr] using he
        subst hs
        simp [enc_text, dec_text, isEmptyStr]
    | token k n p => simp [isEmptyStr] at he
  · rw [enc_text_some, if_neg he, dec_text_some]
    simp [fernetEncrypt, isEmptyStr, fernetDecrypt]

/-- C10: `dec_text` applied to the empty string or to an absent (`None`)
value returns the empty string, mirroring `enc_text` on empty input. -/
theorem C10_dec_text_empty (key : Nat) :
    dec_text key none = FData.raw "" ∧
    dec_text key (some (FData.raw "")) = FData.raw "" := by
  constructor
  · rfl
  · simp [dec_text, isEmptyStr]

/-- C7: key selection.  When the environment passphrase is unset, or set
but blank after trimming, `get_cipher` takes the file-key path (the
result is the load-or-created file key) and never touches the KDF salt;
when a non-blank passphrase is present it derives the key by
PBKDF2-HMAC-SHA-256 with 390000 iterations over the load-or-created
persisted salt. -/
theorem C7_get_cipher_key_selection (env : Option String) (st : KeyState) :
    ((env = none ∨ ∃ p, env = some p ∧ isBlank p = true) →
      get_cipher env st =
        ((fun r => (FKey.file r.1, r.2)) (load_or_create_filekey st)) ∧
      (get_cipher env st).2.saltFile = st.saltFile) ∧
    (∀ p, env = some p → isBlank p = false →
      get_cipher env st =
        (FKey.derived p (load_or_create_salt st).1 390000,
         (load_or_create_salt st).2)) := by
  constructor
  · rintro (rfl | ⟨p, rfl, hb⟩)
    · refine ⟨rfl, ?_⟩
      unfold get_cipher load_or_create_filekey
      cases h : st.keyFile <;> simp [h]
    · refine ⟨?_, ?_⟩
      · unfold get_cipher
        simp [hb]
      · unfold get_cipher load_or_create_filekey
        cases h : st.keyFile <;> simp [hb, h]
  · rintro p rfl hnb
    unfold get_cipher derive_key_from_passphrase
    simp [hnb]

/-- Witness for C7: with the salt file present and the key file absent, a
blank passphrase selects the (freshly created) file key without touching
the salt, and the passphrase `"pw"` selects PBKDF2 derivation over the
persisted salt with 390000 iterations. -/
theorem C7_get_cipher_key_selection_witness :
    (get_cipher (some "   ")
        ⟨some [5, 6], none, [9], [7]⟩ =
      (FKey.file [7], ⟨some [5, 6], some [7], [9], [7]⟩) ∧
     (get_cipher (some "   ") ⟨some [5, 6], none, [9], [7]⟩).2.saltFile =
       some [5, 6]) ∧
    get_cipher (some "pw") ⟨some [5, 6], none, [9], [7]⟩ =
      (FKey.derived "pw" [5, 6] 390000, ⟨some [5, 6], none, [9], [7]⟩) := by
  have h := C7_get_cipher_key_selection (some "   ")
    ⟨some [5, 6], none, [9], [7]⟩
  have h2 := C7_get_cipher_key_selection (some "pw")
    ⟨some [5, 6], none, [9], [7]⟩
  refine ⟨?_, ?_⟩
  · have hb := h.1 (Or.inr ⟨"   ", rfl, by decide⟩)
    exact ⟨by rw [hb.1]; rfl, hb.2⟩
  · have hd := h2.2 "pw" rfl (by decide)
    rw [hd]
    rfl

/-!
File names and Python's string comparison.

`_rotate_backups` (v21_encrpt.py:364-370) compares and sorts file names
with Python's built-in string ordering, which is lexicographic on code
points.  A file name is modelled as its list of code points.
-/

/-- A file name: the list of code points of the Python string. -/
abbrev Name := List Nat

/-- Code points of a Lean string literal, for writing concrete names. -/
def strToName (s : String) : Name := s.toList.map Char.toNat

/-- Python `s.startswith(pre)`: `nameStarts pre s`. -/
def nameStarts : Name → Name → Bool
  | [], _ => true
  | _ :: _, [] => false
  | b :: bs, a :: as => b == a && nameStarts bs as

/-- Python `s1 < s2` on strings: strict lexicographic order on code
points. -/
def nameLt : Name → Name → Bool
  | [], [] => false
  | [], _ :: _ => true
  | _ :: _, [] => false
  | a :: as, b :: bs =>
      if a < b then true else if b < a then false else nameLt as bs

theorem nameStarts_append (p r : Name) : nameStarts p (p ++ r) = true := by
  induction p with
  | nil => rfl
  | cons a as ih => simp [nameStarts, ih]

theorem nameStarts_iff (p s : Name) :
    nameStarts p s = true ↔ ∃ r, s = p ++ r := by
  constructor
  · intro h
    induction p generalizing s with
    | nil => exact ⟨s, rfl⟩
    | cons b bs ih =>
        cases s with
        | nil => simp [nameStarts] at h
        | cons a as =>
            simp only [nameStarts, Bool.and_eq_true, beq_iff_eq] at h
            obtain ⟨rfl, h2⟩ := h
            obtain ⟨r, rfl⟩ := ih as h2
            exact ⟨r, rfl⟩
  · rintro ⟨r, rfl⟩
    exact nameStarts_append p r

/-- If `p` starts `q ++ u` then `p` starts `q` or `q` starts `p`. -/
theorem nameStarts_append_cases :
    ∀ p q u : Name, nameStarts p (q ++ u) = true →
      nameStarts p q = true ∨ nameStarts q p = true := by
  intro p
  induction p with
  | nil => intro q u _; exact Or.inl rfl
  | cons a as ih =>
      intro q u h
      cases q with
      | nil => exact Or.inr rfl
      | cons b bs =>
          simp only [List.cons_append, nameStarts, Bool.and_eq_true,
            beq_iff_eq] at h ⊢
          obtain ⟨rfl, h2⟩ := h
          rcases ih bs u h2 with h3 | h3
          · exact Or.inl ⟨rfl, h3⟩
          · exact Or.inr ⟨rfl, h3⟩

theorem nameLt_nil_right : ∀ a : Name, nameLt a [] = false
  | [] => rfl
  | _ :: _ => rfl

theorem nameLt_cons {a b : Nat} {as bs : Name} :
    nameLt (a :: as) (b :: bs) = true ↔
      (a < b ∨ (a = b ∧ nameLt as bs = true)) := by
  show (if a < b then true else if b < a then false else nameLt as bs) =
    true ↔ _
  rcases Nat.lt_trichotomy a b with h | rfl | h
  · rw [if_pos h]
    simp [h]
  · rw [if_neg (Nat.lt_irrefl a), if_neg (Nat.lt_irrefl a)]
    simp [Nat.lt_irrefl]
  · rw [if_neg (Nat.lt_asymm h), if_pos h]
    constructor
    · intro hf; cases hf
    · rintro (h' | ⟨rfl, _⟩)
      · exact absurd h' (Nat.lt_asymm h)
      · exact absurd h (Nat.lt_irrefl _)

theorem nameLt_irrefl : ∀ a : Name, nameLt a a = false
  | [] => rfl
  | a :: as => by
      have ih := nameLt_irrefl as
      simp [nameLt, Nat.lt_irrefl, ih]

theorem nameLt_trans :
    ∀ {a b c : Name}, nameLt a b = true → nameLt b c = true →
      nameLt a c = true := by
  intro a
  induction a with
  | nil =>
      intro b c hab hbc
      cases b with
      | nil => cases hab
      | cons b bs =>
          cases c with
          | nil => cases hbc
          | cons c cs => rfl
  | cons a as ih =>
      intro b c hab hbc
      cases b with
      | nil => cases hab
      | cons b bs =>
          cases c with
          | nil => cases hbc
          | cons c cs =>
              rcases nameLt_cons.mp hab with h1 | ⟨rfl, h1⟩ <;>
                rcases nameLt_cons.mp hbc with h2 | ⟨rfl, h2⟩ <;>
                  apply nameLt_cons.mpr
              · exact Or.inl (Nat.lt_trans h1 h2)
              · exact Or.inl h1
              · exact Or.inl h2
              · exact Or.inr ⟨rfl, ih h1 h2⟩

theorem nameLt_asymm {a b : Name} (h : nameLt a b = true) :
    nameLt b a = false := by
  by_contra hc
  have hba : nameLt b a = true := by
    revert hc; cases nameLt b a <;> simp
  have := nameLt_trans h hba
  rw [nameLt_irrefl] at this
  cases this

theorem nameLt_trichotomy :
    ∀ a b : Name, nameLt a b = true ∨ a = b ∨ nameLt b a = true := by
  intro a
  induction a with
  | nil =>
      intro b
      cases b with
      | nil => exact Or.inr (Or.inl rfl)
      | cons b bs => exact Or.inl rfl
  | cons a as ih =>
      intro b
      cases b with
      | nil => exact Or.inr (Or.inr rfl)
      | cons b bs =>
          rcases Nat.lt_trichotomy a b with h | rfl | h
          · exact Or.inl (nameLt_cons.mpr (Or.inl h))
          · rcases ih bs with h2 | rfl | h2
            · exact Or.inl (nameLt_cons.mpr (Or.inr ⟨rfl, h2⟩))
            · exact Or.inr (Or.inl rfl)
            · exact Or.inr (Or.inr (nameLt_cons.mpr (Or.inr ⟨rfl, h2⟩)))
          · exact Or.inr (Or.inr (nameLt_cons.mpr (Or.inl h)))

theorem nameLt_conn {a b : Name} (h1 : nameLt a b = false)
    (h2 : nameLt b a = false) : a = b := by
  rcases nameLt_trichotomy a b with h | h | h
  · rw [h1] at h; cases h
  · exact h
  · rw [h2] at h; cases h

theorem nameLt_ne {a b : Name} (h : nameLt a b = true) : a ≠ b := by
  rintro rfl
  rw [nameLt_irrefl] at h
  cases h

theorem nameLt_cons_same (c : Nat) (u v : Name) :
    nameLt (c :: u) (c :: v) = nameLt u v := by
  show (if c < c then true else if c < c then false else nameLt u v) =
    nameLt u v
  rw [if_neg (Nat.lt_irrefl c), if_neg (Nat.lt_irrefl c)]

/-- Stripping a shared prefix preserves the comparison. -/
theorem nameLt_prepend : ∀ (p u v : Name),
    nameLt (p ++ u) (p ++ v) = nameLt u v := by
  intro p
  induction p with
  | nil => intro u v; rfl
  | cons c cs ih =>
      intro u v
      rw [List.cons_append, List.cons_append, nameLt_cons_same, ih]

/-- Comparison across equal-length leading blocks: the blocks decide
unless they are equal, in which case the tails decide. -/
theorem nameLt_append_of_length_eq :
    ∀ (u v s t : Name), u.length = v.length →
      (nameLt (u ++ s) (v ++ t) = true ↔
        (nameLt u v = true ∨ (u = v ∧ nameLt s t = true))) := by
  intro u
  induction u with
  | nil =>
      intro v s t hl
      cases v with
      | nil => simp [nameLt]
      | cons b bs => simp at hl
  | cons a as ih =>
      intro v s t hl
      cases v with
      | nil => simp at hl
      | cons b bs =>
          have hl' : as.length = bs.length := by simpa using hl
          rw [List.cons_append, List.cons_append]
          simp only [nameLt_cons, ih bs s t hl', List.cons.injEq]
          constructor
          · rintro (h | ⟨rfl, h2 | ⟨rfl, h3⟩⟩)
            · exact Or.inl (Or.inl h)
            · exact Or.inl (Or.inr ⟨rfl, h2⟩)
            · exact Or.inr ⟨⟨rfl, rfl⟩, h3⟩
          · rintro ((h | ⟨rfl, h2⟩) | ⟨⟨rfl, rfl⟩, h3⟩)
            · exact Or.inl h
            · exact Or.inr ⟨rfl, Or.inl h2⟩
            · exact Or.inr ⟨rfl, Or.inr ⟨rfl, h3⟩⟩

/-!
Timestamps.  `backup_all` names each record
`f"{tag}_{ts}.enc"` with `ts = datetime.now().strftime("%Y-%m-%d_%H-%M-%S")`
(v21_encrpt.py:373,384).  The zero-padded fixed-width format makes the
lexicographic order on names agree with chronological order, which the
lemmas below establish.
-/

/-- A wall-clock timestamp as captured by
`strftime("%Y-%m-%d_%H-%M-%S")`. -/
structure Ts where
  y : Nat
  mo : Nat
  d : Nat
  h : Nat
  mi : Nat
  s : Nat
deriving DecidableEq, Repr

/-- Field bounds under which the `strftime` rendering is fixed-width
(every real timestamp satisfies much tighter bounds). -/
def Ts.valid (t : Ts) : Prop :=
  t.y < 10000 ∧ t.mo < 100 ∧ t.d < 100 ∧ t.h < 100 ∧ t.mi < 100 ∧ t.s < 100

instance (t : Ts) : Decidable t.valid := by
  unfold Ts.valid
  infer_instance

/-- Chronological order, encoded mixed-radix: `t1` is earlier than `t2`
iff `t1.key < t2.key`. -/
def Ts.key (t : Ts) : Nat :=
  ((((t.y * 100 + t.mo) * 100 + t.d) * 100 + t.h) * 100 + t.mi) * 100 + t.s

/-- Two zero-padded decimal digits (code points), as `%m`, `%d`, `%H`,
`%M`, `%S` render values below 100. -/
def pad2 (n : Nat) : Name := [48 + n / 10, 48 + n % 10]

/-- Four zero-padded decimal digits (code points), as `%Y` renders years
below 10000. -/
def pad4 (n : Nat) : Name :=
  [48 + n / 1000, 48 + n / 100 % 10, 48 + n / 10 % 10, 48 + n % 10]

/-- The rendered timestamp `YYYY-MM-DD_HH-MM-SS` (code points: `-` is 45,
`_` is 95). -/
def fmtTs (t : Ts) : Name :=
  pad4 t.y ++ (45 :: (pad2 t.mo ++ (45 :: (pad2 t.d ++ (95 ::
    (pad2 t.h ++ (45 :: (pad2 t.mi ++ (45 :: pad2 t.s)))))))))

/-- The backup record name `f"{tag}_{ts}.enc"` (code points: `_` is 95,
`.enc` is 46,101,110,99). -/
def recordName (tag : Name) (t : Ts) : Name :=
  (tag ++ [95]) ++ (fmtTs t ++ [46, 101, 110, 99])

theorem nameLt_nil : nameLt ([] : Name) [] = false := rfl

theorem pad2_lt {a b : Nat} (ha : a < 100) (hb : b < 100) :
    (nameLt (pad2 a) (pad2 b) = true ↔ a < b) := by
  simp only [pad2, nameLt_cons, nameLt_nil, Bool.false_eq_true, and_false,
    or_false]
  omega

theorem pad2_inj {a b : Nat} (ha : a < 100) (hb : b < 100) :
    (pad2 a = pad2 b ↔ a = b) := by
  simp only [pad2, List.cons.injEq, and_true]
  omega

theorem pad4_lt {a b : Nat} (ha : a < 10000) (hb : b < 10000) :
    (nameLt (pad4 a) (pad4 b) = true ↔ a < b) := by
  simp only [pad4, nameLt_cons, nameLt_nil, Bool.false_eq_true, and_false,
    or_false]
  omega

theorem pad4_inj {a b : Nat} (ha : a < 10000) (hb : b < 10000) :
    (pad4 a = pad4 b ↔ a = b) := by
  simp only [pad4, List.cons.injEq, and_true]
  omega

theorem pad2_block {a b : Nat} (ha : a < 100) (hb : b < 100)
    (s t : Name) :
    (nameLt (pad2 a ++ s) (pad2 b ++ t) = true ↔
      (a < b ∨ (a = b ∧ nameLt s t = true))) := by
  rw [nameLt_append_of_length_eq _ _ _ _ (by rfl), pad2_lt ha hb,
    pad2_inj ha hb]

theorem pad4_block {a b : Nat} (ha : a < 10000) (hb : b < 10000)
    (s t : Name) :
    (nameLt (pad4 a ++ s) (pad4 b ++ t) = true ↔
      (a < b ∨ (a = b ∧ nameLt s t = true))) := by
  rw [nameLt_append_of_length_eq _ _ _ _ (by rfl), pad4_lt ha hb,
    pad4_inj ha hb]

/-- On valid timestamps, lexicographic order of the rendered form agrees
with chronological order. -/
theorem fmtTs_lt {t1 t2 : Ts} (h1 : t1.valid) (h2 : t2.valid) :
    (nameLt (fmtTs t1) (fmtTs t2) = true ↔ t1.key < t2.key) := by
  obtain ⟨hy1, hmo1, hd1, hh1, hmi1, hs1⟩ := h1
  obtain ⟨hy2, hmo2, hd2, hh2, hmi2, hs2⟩ := h2
  rw [fmtTs, fmtTs, pad4_block hy1 hy2, nameLt_cons_same,
    pad2_block hmo1 hmo2, nameLt_cons_same, pad2_block hd1 hd2,
    nameLt_cons_same, pad2_block hh1 hh2, nameLt_cons_same,
    pad2_block hmi1 hmi2, nameLt_cons_same, pad2_lt hs1 hs2]
  unfold Ts.key
  omega

/-- Within one category, lexicographic order of record names agrees with
chronological order of their timestamps. -/
theorem recordName_lt (tag : Name) {t1 t2 : Ts} (h1 : t1.valid)
    (h2 : t2.valid) :
    (nameLt (recordName tag t1) (recordName tag t2) = true ↔
      t1.key < t2.key) := by
  rw [recordName, recordName, nameLt_prepend,
    nameLt_append_of_length_eq _ _ _ _ (by rfl), fmtTs_lt h1 h2,
    nameLt_irrefl]
  simp

/-- Within one category, equal record names force equal timestamps: two
records of the same category with the same timestamp are the same file. -/
theorem recordName_inj (tag : Name) {t1 t2 : Ts} (h1 : t1.valid)
    (h2 : t2.valid) (h : recordName tag t1 = recordName tag t2) :
    t1.key = t2.key := by
  rcases Nat.lt_trichotomy t1.key t2.key with hk | hk | hk
  · have hlt := (recordName_lt tag h1 h2).mpr hk
    rw [h, nameLt_irrefl] at hlt
    cases hlt
  · exact hk
  · have hlt := (recordName_lt tag h2 h1).mpr hk
    rw [h, nameLt_irrefl] at hlt
    cases hlt

/-- Every record name carries its category prefix `f"{tag}_"`. -/
theorem recordName_starts (tag : Name) (t : Ts) :
    nameStarts (tag ++ [95]) (recordName tag t) = true :=
  nameStarts_append _ _

/-!
The backup folder as a file store: an association list from file names to
contents, unique in names (a directory holds each name once; writing an
existing name replaces its content, `os.remove` deletes it).
-/

/-- A directory: file names with their contents. -/
abbrev Fs := List (Name × FData)

/-- Reading a file: the content stored under the name, if present. -/
def lookupFile : Fs → Name → Option FData
  | [], _ => none
  | (n, d) :: fs, m => if n = m then some d else lookupFile fs m

/-- `open(path, "wb"); f.write(data)`: replace the content under an
existing name, else add the file. -/
def writeFile : Fs → Name → FData → Fs
  | [], n, d => [(n, d)]
  | (m, e) :: fs, n, d =>
      if m = n then (n, d) :: fs else (m, e) :: writeFile fs n d

/-- `os.remove(path)`: drop the file with the given name. -/
def removeFile : Fs → Name → Fs
  | [], _ => []
  | (m, e) :: fs, n =>
      if m = n then removeFile fs n else (m, e) :: removeFile fs n

/-- `os.listdir`: the names in the directory. -/
def fileNames (fs : Fs) : List Name := fs.map Prod.fst

/-- The names in the directory carrying a given category prefix
(`f.startswith(prefix)` in `_rotate_backups`). -/
def pfxNames (pfx : Name) (fs : Fs) : List Name :=
  (fileNames fs).filter (fun n => nameStarts pfx n)

/-- `BACKUP_RETENTION` (v21_encrpt.py:98). -/
def BACKUP_RETENTION : Nat := 20

/-- Descending order used by `sorted(..., reverse=True)`: `a` precedes
`b` when `a` is not lexicographically below `b`. -/
def descOrder (a b : Name) : Prop := nameLt a b = false

instance : DecidableRel descOrder := fun a b =>
  inferInstanceAs (Decidable (nameLt a b = false))

instance : IsTotal Name descOrder :=
  ⟨fun a b => by
    unfold descOrder
    cases h : nameLt a b
    · exact Or.inl rfl
    · exact Or.inr (nameLt_asymm h)⟩

instance : IsTrans Name descOrder :=
  ⟨fun a b c hab hbc => by
    unfold descOrder at *
    cases hac : nameLt a c
    · rfl
    · rcases nameLt_trichotomy b c with h | rfl | h
      · rw [hbc] at h; cases h
      · rw [hab] at hac; cases hac
      · have := nameLt_trans hac h
        rw [hab] at this
        cases this⟩

/-- `sorted(files, reverse=True)`. -/
def sortDesc (l : List Name) : List Name := List.insertionSort descOrder l

/-- The loop
`for f in files[BACKUP_RETENTION:]: try: os.remove(...) except: pass`:
delete each listed name, skipping names whose removal raises (`bad`). -/
def removeMany (bad : List Name) : Fs → List Name → Fs
  | fs, [] => fs
  | fs, n :: del =>
      removeMany bad (if n ∈ bad then fs else removeFile fs n) del

/-- `_rotate_backups` (v21_encrpt.py:364-370): list the names with the
category prefix, sort descending, delete all beyond the retention
count. -/
def rotate_backups (bad : List Name) (pfx : Name) (fs : Fs) : Fs :=
  removeMany bad fs ((sortDesc (pfxNames pfx fs)).drop BACKUP_RETENTION)

theorem sortDesc_sorted (l : List Name) :
    (sortDesc l).Sorted descOrder :=
  List.sorted_insertionSort _ _

theorem sortDesc_perm (l : List Name) : (sortDesc l).Perm l :=
  List.perm_insertionSort _ _

theorem pairwise_take_drop {r : Name → Name → Prop} {l : List Name}
    (h : l.Pairwise r) (n : Nat) :
    ∀ a ∈ l.take n, ∀ b ∈ l.drop n, r a b := by
  have hsplit : l.take n ++ l.drop n = l := List.take_append_drop n l
  rw [← hsplit] at h
  exact fun a ha b hb => (List.pairwise_append.mp h).2.2 a ha b hb

theorem lookupFile_writeFile_self (fs : Fs) (n : Name) (d : FData) :
    lookupFile (writeFile fs n d) n = some d := by
  induction fs with
  | nil => simp [writeFile, lookupFile]
  | cons e fs ih =>
      obtain ⟨m, c⟩ := e
      by_cases h : m = n
      · subst h
        simp [writeFile, lookupFile]
      · simp [writeFile, lookupFile, h, ih]

theorem lookupFile_writeFile_ne (fs : Fs) {n m : Name} (d : FData)
    (h : m ≠ n) : lookupFile (writeFile fs n d) m = lookupFile fs m := by
  induction fs with
  | nil => simp [writeFile, lookupFile, Ne.symm h]
  | cons e fs ih =>
      obtain ⟨p, c⟩ := e
      by_cases hp : p = n
      · subst hp
        simp [writeFile, lookupFile, Ne.symm h]
      · simp [writeFile, lookupFile, hp, ih]

theorem lookupFile_removeFile (fs : Fs) (n m : Name) :
    lookupFile (removeFile fs n) m =
      if m = n then none else lookupFile fs m := by
  induction fs with
  | nil => simp [removeFile, lookupFile]
  | cons e fs ih =>
      obtain ⟨p, c⟩ := e
      by_cases hp : p = n
      · subst hp
        rw [removeFile, if_pos rfl, ih]
        by_cases hm : m = p
        · rw [if_pos hm, if_pos hm]
        · rw [if_neg hm, if_neg hm]
          simp only [lookupFile]
          rw [if_neg (fun hc : p = m => hm hc.symm)]
      · rw [removeFile, if_neg hp]
        simp only [lookupFile]
        rw [ih]
        by_cases hpm : p = m
        · rw [if_pos hpm, if_pos hpm,
            if_neg (fun hc : m = n => hp (hpm.trans hc))]
        · rw [if_neg hpm, if_neg hpm]

theorem mem_fileNames_writeFile (fs : Fs) (n m : Name) (d : FData) :
    m ∈ fileNames (writeFile fs n d) ↔ m = n ∨ m ∈ fileNames fs := by
  induction fs with
  | nil => simp [writeFile, fileNames]
  | cons e fs ih =>
      obtain ⟨p, c⟩ := e
      by_cases hp : p = n
      · subst hp
        rw [writeFile, if_pos rfl]
        simp only [fileNames, List.map_cons, List.mem_cons]
        tauto
      · rw [writeFile, if_neg hp]
        simp only [fileNames, List.map_cons, List.mem_cons]
        simp only [fileNames] at ih
        rw [ih]
        tauto

theorem mem_fileNames_removeFile (fs : Fs) (n m : Name) :
    m ∈ fileNames (removeFile fs n) ↔ m ∈ fileNames fs ∧ m ≠ n := by
  induction fs with
  | nil => simp [removeFile, fileNames]
  | cons e fs ih =>
      obtain ⟨p, c⟩ := e
      by_cases hp : p = n
      · subst hp
        rw [removeFile, if_pos rfl, ih]
        simp only [fileNames, List.map_cons, List.mem_cons]
        constructor
        · rintro ⟨h1, h2⟩
          exact ⟨Or.inr h1, h2⟩
        · rintro ⟨h1 | h1, h2⟩
          · exact absurd h1 h2
          · exact ⟨h1, h2⟩
      · rw [removeFile, if_neg hp]
        simp only [fileNames, List.map_cons, List.mem_cons]
        simp only [fileNames] at ih
        rw [ih]
        constructor
        · rintro (rfl | ⟨h1, h2⟩)
          · exact ⟨Or.inl rfl, hp⟩
          · exact ⟨Or.inr h1, h2⟩
        · rintro ⟨rfl | h1, h2⟩
          · exact Or.inl rfl
          · exact Or.inr ⟨h1, h2⟩

theorem nodup_fileNames_writeFile (fs : Fs) (n : Name) (d : FData)
    (h : (fileNames fs).Nodup) : (fileNames (writeFile fs n d)).Nodup := by
  induction fs with
  | nil => simp [writeFile, fileNames]
  | cons e fs ih =>
      obtain ⟨p, c⟩ := e
      simp only [fileNames, List.map_cons, List.nodup_cons] at h
      by_cases hp : p = n
      · subst hp
        simpa [writeFile, fileNames] using h
      · simp only [writeFile, if_neg hp, fileNames, List.map_cons,
          List.nodup_cons]
        refine ⟨?_, ih h.2⟩
        intro hc
        rcases (mem_fileNames_writeFile fs n p d).mp hc with rfl | hc2
        · exact hp rfl
        · exact h.1 hc2

theorem nodup_fileNames_removeFile (fs : Fs) (n : Name)
    (h : (fileNames fs).Nodup) : (fileNames (removeFile fs n)).Nodup := by
  induction fs with
  | nil => simp [removeFile, fileNames]
  | cons e fs ih =>
      obtain ⟨p, c⟩ := e
      simp only [fileNames, List.map_cons, List.nodup_cons] at h
      by_cases hp : p = n
      · subst hp
        rw [removeFile, if_pos rfl]
        exact ih h.2
      · rw [removeFile, if_neg hp]
        simp only [fileNames, List.map_cons, List.nodup_cons]
        refine ⟨?_, ih h.2⟩
        intro hc
        exact h.1 ((mem_fileNames_removeFile fs n p).mp hc).1

theorem lookupFile_removeMany (bad : List Name) :
    ∀ (del : List Name) (fs : Fs) (m : Name),
      lookupFile (removeMany bad fs del) m =
        if m ∈ del ∧ m ∉ bad then none else lookupFile fs m := by
  intro del
  induction del with
  | nil => intro fs m; simp [removeMany]
  | cons n del ih =>
      intro fs m
      rw [removeMany, ih]
      by_cases hmd : m ∈ del ∧ m ∉ bad
      · rw [if_pos hmd, if_pos ⟨List.mem_cons_of_mem n hmd.1, hmd.2⟩]
      · rw [if_neg hmd]
        by_cases hb : n ∈ bad
        · rw [if_pos hb]
          have hc : ¬(m ∈ n :: del ∧ m ∉ bad) := by
            rintro ⟨hmem, hnb⟩
            rcases List.mem_cons.mp hmem with rfl | hmem2
            · exact hnb hb
            · exact hmd ⟨hmem2, hnb⟩
          rw [if_neg hc]
        · rw [if_neg hb, lookupFile_removeFile]
          by_cases hmn : m = n
          · rw [if_pos hmn,
              if_pos ⟨by rw [hmn]; exact List.mem_cons_self n del,
                by rw [hmn]; exact hb⟩]
          · rw [if_neg hmn]
            have hc : ¬(m ∈ n :: del ∧ m ∉ bad) := by
              rintro ⟨hmem, hnb⟩
              rcases List.mem_cons.mp hmem with rfl | hmem2
              · exact hmn rfl
              · exact hmd ⟨hmem2, hnb⟩
            rw [if_neg hc]

theorem mem_fileNames_removeMany (bad : List Name) :
    ∀ (del : List Name) (fs : Fs) (m : Name),
      m ∈ fileNames (removeMany bad fs del) ↔
        m ∈ fileNames fs ∧ ¬(m ∈ del ∧ m ∉ bad) := by
  intro del
  induction del with
  | nil => intro fs m; simp [removeMany]
  | cons n del ih =>
      intro fs m
      rw [removeMany, ih]
      by_cases hb : n ∈ bad
      · rw [if_pos hb]
        constructor
        · rintro ⟨h1, h2⟩
          refine ⟨h1, ?_⟩
          rintro ⟨hmem, hnb⟩
          rcases List.mem_cons.mp hmem with rfl | hmem2
          · exact hnb hb
          · exact h2 ⟨hmem2, hnb⟩
        · rintro ⟨h1, h2⟩
          refine ⟨h1, ?_⟩
          rintro ⟨hmem, hnb⟩
          exact h2 ⟨List.mem_cons_of_mem n hmem, hnb⟩
      · rw [if_neg hb, mem_fileNames_removeFile]
        constructor
        · rintro ⟨⟨h1, hne⟩, h2⟩
          refine ⟨h1, ?_⟩
          rintro ⟨hmem, hnb⟩
          rcases List.mem_cons.mp hmem with rfl | hmem2
          · exact hne rfl
          · exact h2 ⟨hmem2, hnb⟩
        · rintro ⟨h1, h2⟩
          have hne : m ≠ n := by
            rintro rfl
            exact h2 ⟨List.mem_cons_self m del, hb⟩
          refine ⟨⟨h1, hne⟩, ?_⟩
          rintro ⟨hmem, hnb⟩
          exact h2 ⟨List.mem_cons_of_mem n hmem, hnb⟩

theorem nodup_fileNames_removeMany (bad : List Name) :
    ∀ (del : List Name) (fs : Fs), (fileNames fs).Nodup →
      (fileNames (removeMany bad fs del)).Nodup := by
  intro del
  induction del with
  | nil => intro fs h; exact h
  | cons n del ih =>
      intro fs h
      rw [removeMany]
      by_cases hb : n ∈ bad
      · rw [if_pos hb]
        exact ih fs h
      · rw [if_neg hb]
        exact ih _ (nodup_fileNames_removeFile fs n h)

/-- The content surviving a rotation: a file is gone afterwards exactly
when its name was listed beyond the retention cut and its removal did not
fail. -/
theorem lookupFile_rotate (bad : List Name) (pfx : Name) (fs : Fs)
    (m : Name) :
    lookupFile (rotate_backups bad pfx fs) m =
      if m ∈ (sortDesc (pfxNames pfx fs)).drop BACKUP_RETENTION ∧ m ∉ bad
      then none else lookupFile fs m :=
  lookupFile_removeMany bad _ fs m

theorem mem_fileNames_rotate (bad : List Name) (pfx : Name) (fs : Fs)
    (m : Name) :
    m ∈ fileNames (rotate_backups bad pfx fs) ↔
      m ∈ fileNames fs ∧
        ¬(m ∈ (sortDesc (pfxNames pfx fs)).drop BACKUP_RETENTION ∧
          m ∉ bad) :=
  mem_fileNames_removeMany bad _ fs m

theorem nodup_fileNames_rotate (bad : List Name) (pfx : Name) (fs : Fs)
    (h : (fileNames fs).Nodup) :
    (fileNames (rotate_backups bad pfx fs)).Nodup :=
  nodup_fileNames_removeMany bad _ fs h

/-- Every name beyond the retention cut carries the category prefix and
names a file of the folder. -/
theorem mem_drop_sort (pfx : Name) (fs : Fs) {m : Name}
    (h : m ∈ (sortDesc (pfxNames pfx fs)).drop BACKUP_RETENTION) :
    nameStarts pfx m = true ∧ m ∈ fileNames fs := by
  have h1 : m ∈ sortDesc (pfxNames pfx fs) := List.mem_of_mem_drop h
  have h2 : m ∈ pfxNames pfx fs := (sortDesc_perm _).mem_iff.mp h1
  have h3 := List.mem_filter.mp h2
  exact ⟨h3.2, h3.1⟩

theorem nodup_sortDesc (pfx : Name) (fs : Fs)
    (hnd : (fileNames fs).Nodup) :
    (sortDesc (pfxNames pfx fs)).Nodup :=
  (sortDesc_perm _).nodup_iff.mpr (hnd.filter _)

/-- Every name kept by the retention cut is lexicographically above every
name dropped by it. -/
theorem rotate_kept_gt (pfx : Name) (fs : Fs)
    (hnd : (fileNames fs).Nodup) :
    ∀ k ∈ (sortDesc (pfxNames pfx fs)).take BACKUP_RETENTION,
      ∀ d ∈ (sortDesc (pfxNames pfx fs)).drop BACKUP_RETENTION,
        nameLt d k = true := by
  intro k hk d hd
  have hrel : descOrder k d :=
    pairwise_take_drop (sortDesc_sorted (pfxNames pfx fs))
      BACKUP_RETENTION k hk d hd
  have hnd2 := nodup_sortDesc pfx fs hnd
  rw [← List.take_append_drop BACKUP_RETENTION
    (sortDesc (pfxNames pfx fs))] at hnd2
  have hdisj := (List.nodup_append.mp hnd2).2.2
  have hne : k ≠ d := fun heq => hdisj hk (heq ▸ hd)
  rcases nameLt_trichotomy d k with h | h | h
  · exact h
  · exact absurd h.symm hne
  · unfold descOrder at hrel
    rw [hrel] at h
    cases h

/-!
The engine state.  `arts` is the data directory (`DATA_DIR`), `baks` the
backup directory (`BACKUP_FOLDER`); the `finance` table is the list of its
rows; `csv` is the current tabular content that
`persist_csv_and_excel_encrypted` reads back from the plaintext export
(the pandas/openpyxl rendering of rows to bytes is abstracted into
`dumpOf`/`wbOf`/`csvOfDb`, which no claim inspects).  `nonce` is the next
fresh value the cipher's RNG will produce; each encryption consumes it.
`badArt`/`badBak` are the paths whose `open(..., "wb")` raises an
`OSError`; `badRemove` the backup paths whose `os.remove` raises.
Exceptions propagate as `Except.error` paired with the state at the raise
point, mirroring Python exception semantics. -/
structure Sys where
  arts : Fs
  baks : Fs
  db : List String
  csv : String
  key : Nat
  nonce : Nat
  badArt : List Name
  badBak : List Name
  badRemove : List Name
deriving DecidableEq, Repr

/-- Python exceptions relevant to the engine. -/
inductive Err where
  | invalidToken
  | ioError
  | fileNotFound
deriving DecidableEq, Repr

/-- `DB_DUMP_ENC` (v21_encrpt.py:77), as a name within the data dir. -/
def DB_DUMP_ENC : Name := strToName "finance_dump.sql.enc"

/-- `CSV_ENC` (v21_encrpt.py:75). -/
def CSV_ENC : Name := strToName "daily_finance_tracker.csv.enc"

/-- `XLSX_ENC` (v21_encrpt.py:76). -/
def XLSX_ENC : Name := strToName "daily_finance_tracker.xlsx.enc"

/-- `STATE_ENC` (v21_encrpt.py:78). -/
def STATE_ENC : Name := strToName "finance_state.json.enc"

/-- The temporary dump path of `restore_from_encrypted_dump`
(v21_encrpt.py:804). -/
def TMP_DUMP : Name := strToName "__tmp_dump.sql"

/-- Category tags used by `backup_all` (v21_encrpt.py:387-391). -/
def dbdumpTag : Name := strToName "dbdump"

def csvTag : Name := strToName "csv"

def excelTag : Name := strToName "excel"

def stateTag : Name := strToName "state"

/-- `"\n".join(conn.iterdump())` (v21_encrpt.py:344): the SQL dump text
of the finance table (serialization abstracted; injective on rows is not
needed by any claim). -/
def dumpOf (db : List String) : String := String.intercalate "\n" db

/-- The openpyxl workbook bytes for the same tabular content
(v21_encrpt.py:329-336, serialization abstracted). -/
def wbOf (csv : String) : String := "WB:" ++ csv

/-- `rebuild_csv_from_db` (v21_encrpt.py:285-311): the tabular rendering
of the current finance rows (serialization abstracted). -/
def csvOfDb (db : List String) : String := String.intercalate "," db

/-- `executescript` of a dump after `DROP TABLE IF EXISTS finance`: the
dump script recreates the table it serialized (v21_encrpt.py:808-811). -/
def execScript (sql : FData) : List String :=
  match sql with
  | FData.raw s => s.splitOn "\n"
  | FData.token _ _ _ => []

/-- `_write_file_secure` into the data dir: `open(path, "wb")` raises on
an unwritable path before any content lands, else the content replaces
the file; the `chmod` failure is swallowed by the source's own
`try/except`.  (Mid-write interruption states are examined separately by
the event-trace model below.) -/
def write_file_secure_art (s : Sys) (p : Name) (d : FData) :
    Sys × Except Err Unit :=
  if p ∈ s.badArt then (s, Except.error Err.ioError)
  else ({ s with arts := writeFile s.arts p d }, Except.ok ())

/-- `_write_file_secure` into the backup dir. -/
def write_file_secure_bak (s : Sys) (p : Name) (d : FData) :
    Sys × Except Err Unit :=
  if p ∈ s.badBak then (s, Except.error Err.ioError)
  else ({ s with baks := writeFile s.baks p d }, Except.ok ())

/-- `persist_db_dump` (v21_encrpt.py:342-346): seal the current dump text
with a fresh nonce and write it to `DB_DUMP_ENC`. -/
def persist_db_dump (s : Sys) : Sys × Except Err Unit :=
  let sealed := fernetEncrypt s.key s.nonce (FData.raw (dumpOf s.db))
  write_file_secure_art { s with nonce := s.nonce + 1 } DB_DUMP_ENC sealed

/-- `persist_csv_and_excel_encrypted` (v21_encrpt.py:313-337): seal the
current tabular content to `CSV_ENC`, then the workbook bytes to
`XLSX_ENC`, each with a fresh nonce. -/
def persist_csv_and_excel_encrypted (s : Sys) : Sys × Except Err Unit :=
  let sealedCsv := fernetEncrypt s.key s.nonce (FData.raw s.csv)
  match write_file_secure_art { s with nonce := s.nonce + 1 } CSV_ENC
      sealedCsv with
  | (s2, Except.error e) => (s2, Except.error e)
  | (s2, Except.ok ()) =>
      let sealedWb := fernetEncrypt s2.key s2.nonce (FData.raw (wbOf s2.csv))
      write_file_secure_art { s2 with nonce := s2.nonce + 1 } XLSX_ENC
        sealedWb

/-- `copy_enc` inside `backup_all` (v21_encrpt.py:377-386): if the source
artifact exists, decrypt it (falling back to the raw sealed bytes when
decryption raises — the source's only `try/except` here), seal the result
with a fresh nonce into the timestamped record, then rotate the
category. -/
def copy_enc (ts : Ts) (src : Name) (tag : Name) (s : Sys) :
    Sys × Except Err Unit :=
  match lookupFile s.arts src with
  | none => (s, Except.ok ())
  | some content =>
      let plain :=
        match fernetDecrypt s.key content with
        | some p => p
        | none => content
      let sealed := fernetEncrypt s.key s.nonce plain
      match write_file_secure_bak { s with nonce := s.nonce + 1 }
          (recordName tag ts) sealed with
      | (s2, Except.error e) => (s2, Except.error e)
      | (s2, Except.ok ()) =>
          ({ s2 with
              baks := rotate_backups s2.badRemove (tag ++ [95]) s2.baks },
            Except.ok ())

/-- `backup_all` (v21_encrpt.py:372-391): refresh the sealed artifacts,
then snapshot each category in order, with the state category only when
`STATE_ENC` exists.  `ts` is the `datetime.now()` timestamp taken at
entry. -/
def backup_all (ts : Ts) (s : Sys) : Sys × Except Err Unit :=
  match persist_db_dump s with
  | (s1, Except.error e) => (s1, Except.error e)
  | (s1, Except.ok ()) =>
    match persist_csv_and_excel_encrypted s1 with
    | (s2, Except.error e) => (s2, Except.error e)
    | (s2, Except.ok ()) =>
      match copy_enc ts DB_DUMP_ENC dbdumpTag s2 with
      | (s3, Except.error e) => (s3, Except.error e)
      | (s3, Except.ok ()) =>
        match copy_enc ts CSV_ENC csvTag s3 with
        | (s4, Except.error e) => (s4, Except.error e)
        | (s4, Except.ok ()) =>
          match copy_enc ts XLSX_ENC excelTag s4 with
          | (s5, Except.error e) => (s5, Except.error e)
          | (s5, Except.ok ()) =>
            if (lookupFile s5.arts STATE_ENC).isSome then
              copy_enc ts STATE_ENC stateTag s5
            else (s5, Except.ok ())

/-- `decrypt_artifact` (v21_encrpt.py:795-801): read the sealed file,
authenticate and decrypt (raising `InvalidToken` on failure, before
anything is written), then write the plaintext to the output path. -/
def decrypt_artifact (enc_path out_path : Name) (s : Sys) :
    Sys × Except Err Unit :=
  match lookupFile s.arts enc_path with
  | none => (s, Except.error Err.fileNotFound)
  | some enc =>
      match fernetDecrypt s.key enc with
      | none => (s, Except.error Err.invalidToken)
      | some plain =>
          if out_path ∈ s.badArt then (s, Except.error Err.ioError)
          else ({ s with arts := writeFile s.arts out_path plain },
            Except.ok ())

/-- `restore_from_encrypted_dump` (v21_encrpt.py:803-816): decrypt the
sealed dump to a temporary file, drop and recreate the finance table from
the script, remove the temporary file, rebuild the tabular export from
the restored table, reseal the exports, and return `True`. -/
def restore_from_encrypted_dump (enc_path : Name) (s : Sys) :
    Sys × Except Err Bool :=
  match decrypt_artifact enc_path TMP_DUMP s with
  | (s1, Except.error e) => (s1, Except.error e)
  | (s1, Except.ok ()) =>
      match lookupFile s1.arts TMP_DUMP with
      | none => (s1, Except.error Err.fileNotFound)
      | some sql =>
          let s2 := { s1 with db := execScript sql }
          let s3 := { s2 with arts := removeFile s2.arts TMP_DUMP }
          let s4 := { s3 with csv := csvOfDb s3.db }
          match persist_csv_and_excel_encrypted s4 with
          | (s5, Except.error e) => (s5, Except.error e)
          | (s5, Except.ok ()) => (s5, Except.ok true)

/-- C1: for every sealed dump input whose authenticated decryption fails,
`restore_from_encrypted_dump` raises before touching the database: the
whole state (in particular the finance table) is unchanged and the
failure is reported as an error rather than a silent completion.  The
drop/recreate can only run after decryption has succeeded. -/
theorem C1_restore_fails_safe (enc_path : Name) (s : Sys) (enc : FData)
    (hread : lookupFile s.arts enc_path = some enc)
    (hfail : fernetDecrypt s.key enc = none) :
    restore_from_encrypted_dump enc_path s =
      (s, Except.error Err.invalidToken) ∧
    (restore_from_encrypted_dump enc_path s).1.db = s.db := by
  have h : decrypt_artifact enc_path TMP_DUMP s =
      (s, Except.error Err.invalidToken) := by
    simp [decrypt_artifact, hread, hfail]
  have h1 : restore_from_encrypted_dump enc_path s =
      (s, Except.error Err.invalidToken) := by
    simp [restore_from_encrypted_dump, h]
  exact ⟨h1, by rw [h1]⟩

/-- A state holding a tampered sealed dump (raw bytes, not an authentic
token under the process key). -/
def tamperedSys : Sys :=
  { arts := [(DB_DUMP_ENC, FData.raw "tampered bytes")]
    baks := []
    db := ["CREATE TABLE finance", "INSERT INTO finance VALUES (1)"]
    csv := "row"
    key := 5
    nonce := 9
    badArt := []
    badBak := []
    badRemove := [] }

/-- Witness for C1: restoring from the tampered dump errors out and the
live table rows are untouched. -/
theorem C1_restore_fails_safe_witness :
    restore_from_encrypted_dump DB_DUMP_ENC tamperedSys =
      (tamperedSys, Except.error Err.invalidToken) ∧
    (restore_from_encrypted_dump DB_DUMP_ENC tamperedSys).1.db =
      tamperedSys.db :=
  C1_restore_fails_safe DB_DUMP_ENC tamperedSys (FData.raw "tampered bytes")
    (by decide) (by decide)

/-!
Event-trace model of `_write_file_secure` (v21_encrpt.py:136-142), to
examine what a mid-write interruption can leave at the final path.
`open(path, "wb")` truncates the file at the final path immediately;
`f.write(data)` then appends the bytes; `os.chmod` changes no content.
A `rename` event exists in the vocabulary so that the absence of any
temp-then-rename step in the function's trace is expressible.
-/

/-- A directory of raw byte files. -/
abbrev ByteFs := List (Name × List Nat)

inductive FsEvent where
  | openTrunc (p : Name)
  | writeData (p : Name) (d : List Nat)
  | chmod (p : Name)
  | rename (src dst : Name)
deriving DecidableEq, Repr

def lookupBytes : ByteFs → Name → Option (List Nat)
  | [], _ => none
  | (n, d) :: fs, m => if n = m then some d else lookupBytes fs m

def writeBytes : ByteFs → Name → List Nat → ByteFs
  | [], n, d => [(n, d)]
  | (m, e) :: fs, n, d =>
      if m = n then (n, d) :: fs else (m, e) :: writeBytes fs n d

def removeBytes : ByteFs → Name → ByteFs
  | [], _ => []
  | (m, e) :: fs, n =>
      if m = n then removeBytes fs n else (m, e) :: removeBytes fs n

def applyEvent (fs : ByteFs) : FsEvent → ByteFs
  | FsEvent.openTrunc p => writeBytes fs p []
  | FsEvent.writeData p d =>
      match lookupBytes fs p with
      | some cur => writeBytes fs p (cur ++ d)
      | none => writeBytes fs p d
  | FsEvent.chmod _ => fs
  | FsEvent.rename src dst =>
      match lookupBytes fs src with
      | some c => removeBytes (writeBytes fs dst c) src
      | none => fs

def runEvents (fs : ByteFs) : List FsEvent → ByteFs
  | [] => fs
  | e :: es => runEvents (applyEvent fs e) es

/-- `_write_file_secure` (v21_encrpt.py:136-142) as its event trace: a
truncating open at the final path, one write of the full content, then
the permission change. -/
def write_file_secure (p : Name) (data : List Nat) : List FsEvent :=
  [FsEvent.openTrunc p, FsEvent.writeData p data, FsEvent.chmod p]

theorem lookupBytes_writeBytes_self (fs : ByteFs) (n : Name)
    (d : List Nat) : lookupBytes (writeBytes fs n d) n = some d := by
  induction fs with
  | nil => simp [writeBytes, lookupBytes]
  | cons e fs ih =>
      obtain ⟨m, c⟩ := e
      by_cases h : m = n
      · subst h
        simp [writeBytes, lookupBytes]
      · simp [writeBytes, lookupBytes, h, ih]

/-- C5 counterexample: `_write_file_secure` contains no rename step at
all, and interrupting it right after the truncating open leaves an empty
(half-written) file visible at the final path, which is neither the old
content nor the new content.  This refutes, at a concrete input, both the
claimed temp-then-rename mechanism and the claimed interruption
safety. -/
theorem C5_counterexample :
    (∀ st dt : Name,
      FsEvent.rename st dt ∉ write_file_secure [112] [7, 8, 9]) ∧
    ¬(∀ k : Nat,
      lookupBytes
          (runEvents [([112], [1, 2, 3])]
            ((write_file_secure [112] [7, 8, 9]).take k)) [112] =
        lookupBytes [([112], [1, 2, 3])] [112] ∨
      lookupBytes
          (runEvents [([112], [1, 2, 3])]
            ((write_file_secure [112] [7, 8, 9]).take k)) [112] =
        some [7, 8, 9]) := by
  constructor
  · intro st dt
    simp [write_file_secure]
  · intro h
    have h1 := h 1
    revert h1
    decide

/-- C5 as amended: `_write_file_secure` writes the content directly to
the final path — its trace performs a truncating open at the final path,
a single write of the complete content there, and a permission change,
with no temporary path and no rename; the full run does leave exactly the
new content at the final path, but the state after the truncating open
has an empty file visible at the final path, so an interruption mid-write
can expose a half-written (truncated) sealed file. -/
theorem C5_write_file_secure_direct (p : Name) (data : List Nat)
    (fs : ByteFs) :
    lookupBytes (runEvents fs (write_file_secure p data)) p = some data ∧
    lookupBytes (runEvents fs ((write_file_secure p data).take 1)) p =
      some [] ∧
    (∀ st dt : Name, FsEvent.rename st dt ∉ write_file_secure p data) := by
  refine ⟨?_, ?_, ?_⟩
  · simp [write_file_secure, runEvents, applyEvent,
      lookupBytes_writeBytes_self]
  · simp [write_file_secure, runEvents, applyEvent,
      lookupBytes_writeBytes_self]
  · intro st dt
    simp [write_file_secure]

/-- If neither of two prefixes starts the other, the first cannot start
any extension of the second. -/
theorem nameStarts_false_of_no_overlap {p q : Name}
    (h1 : nameStarts p q = false) (h2 : nameStarts q p = false)
    (u : Name) : nameStarts p (q ++ u) = false := by
  cases hc : nameStarts p (q ++ u)
  · rfl
  · rcases nameStarts_append_cases p q u hc with h | h
    · rw [h1] at h; cases h
    · rw [h2] at h; cases h

/-- The four category tags of `backup_all`. -/
def tags4 : List Name := [dbdumpTag, csvTag, excelTag, stateTag]

/-- C9: `_rotate_backups` with a category prefix deletes only files whose
names start with that prefix and lie beyond the retention cut; the
content of every name not carrying the prefix is untouched; and since no
category prefix of `backup_all` starts another, rotating one category
never touches a file of another category. -/
theorem C9_rotate_frame (bad : List Name) (pfx : Name) (fs : Fs) :
    (∀ n, n ∈ fileNames fs →
      n ∉ fileNames (rotate_backups bad pfx fs) →
      nameStarts pfx n = true ∧
        n ∈ (sortDesc (pfxNames pfx fs)).drop BACKUP_RETENTION) ∧
    (∀ n, nameStarts pfx n = false →
      lookupFile (rotate_backups bad pfx fs) n = lookupFile fs n) ∧
    (∀ t1 t2, t1 ∈ tags4 → t2 ∈ tags4 → t1 ≠ t2 →
      nameStarts (t1 ++ [95]) (t2 ++ [95]) = false ∧
      ∀ rest, lookupFile (rotate_backups bad (t1 ++ [95]) fs)
          ((t2 ++ [95]) ++ rest) =
        lookupFile fs ((t2 ++ [95]) ++ rest)) := by
  have frame : ∀ (pfx' : Name) (n : Name), nameStarts pfx' n = false →
      lookupFile (rotate_backups bad pfx' fs) n = lookupFile fs n := by
    intro pfx' n h
    rw [lookupFile_rotate]
    rw [if_neg]
    rintro ⟨hd, _⟩
    have := (mem_drop_sort pfx' fs hd).1
    rw [h] at this
    cases this
  refine ⟨?_, frame pfx, ?_⟩
  · intro n hmem hnot
    rw [mem_fileNames_rotate bad pfx fs n] at hnot
    have hD : n ∈ (sortDesc (pfxNames pfx fs)).drop BACKUP_RETENTION ∧
        n ∉ bad := by
      by_contra hc
      exact hnot ⟨hmem, hc⟩
    exact ⟨(mem_drop_sort pfx fs hD.1).1, hD.1⟩
  · intro t1 t2 h1 h2 hne
    have hno : nameStarts (t1 ++ [95]) (t2 ++ [95]) = false ∧
        nameStarts (t2 ++ [95]) (t1 ++ [95]) = false := by
      simp only [tags4, List.mem_cons, List.not_mem_nil, or_false] at h1 h2
      rcases h1 with rfl | rfl | rfl | rfl <;>
        rcases h2 with rfl | rfl | rfl | rfl <;>
          first
          | exact absurd rfl hne
          | exact ⟨by decide, by decide⟩
    refine ⟨hno.1, fun rest => frame _ _ ?_⟩
    exact nameStarts_false_of_no_overlap hno.1 hno.2 rest

/-- Witness for C9: with only a csv-category record in the folder,
rotating the dbdump category does not start the csv prefix and leaves the
csv record's content untouched. -/
theorem C9_rotate_frame_witness :
    nameStarts (dbdumpTag ++ [95]) (csvTag ++ [95]) = false ∧
    lookupFile
        (rotate_backups [] (dbdumpTag ++ [95])
          [((csvTag ++ [95]) ++ [48, 49], FData.raw "x")])
        ((csvTag ++ [95]) ++ [48, 49]) =
      lookupFile [((csvTag ++ [95]) ++ [48, 49], FData.raw "x")]
        ((csvTag ++ [95]) ++ [48, 49]) := by
  have h := (C9_rotate_frame [] (dbdumpTag ++ [95])
    [((csvTag ++ [95]) ++ [48, 49], FData.raw "x")]).2.2 dbdumpTag csvTag
    (by decide) (by decide) (by decide)
  exact ⟨h.1, h.2 [48, 49]⟩

/-!  Frame lemmas used to trace one category through `backup_all`. -/

theorem fileNames_writeFile (fs : Fs) (n : Name) (d : FData) :
    fileNames (writeFile fs n d) =
      if n ∈ fileNames fs then fileNames fs else fileNames fs ++ [n] := by
  induction fs with
  | nil => simp [writeFile, fileNames]
  | cons e fs ih =>
      obtain ⟨m, c⟩ := e
      by_cases hm : m = n
      · subst hm
        simp [writeFile, fileNames]
      · rw [writeFile, if_neg hm]
        simp only [fileNames, List.map_cons] at ih ⊢
        rw [ih]
        by_cases hn : n ∈ List.map Prod.fst fs
        · rw [if_pos hn, if_pos (List.mem_cons_of_mem m hn)]
        · rw [if_neg hn, if_neg ?hc]
          case hc =>
            intro hmem
            rcases List.mem_cons.mp hmem with heq | hmem2
            · exact hm heq.symm
            · exact hn hmem2
          rfl

theorem pfxNames_writeFile_foreign (pfx : Name) (fs : Fs) {n : Name}
    (d : FData) (h : nameStarts pfx n = false) :
    pfxNames pfx (writeFile fs n d) = pfxNames pfx fs := by
  unfold pfxNames
  rw [fileNames_writeFile]
  by_cases hn : n ∈ fileNames fs
  · rw [if_pos hn]
  · rw [if_neg hn, List.filter_append]
    simp [h]

theorem pfxNames_removeFile_foreign (pfx : Name) {n : Name}
    (h : nameStarts pfx n = false) :
    ∀ fs : Fs, pfxNames pfx (removeFile fs n) = pfxNames pfx fs := by
  intro fs
  induction fs with
  | nil => rfl
  | cons e fs ih =>
      obtain ⟨m, c⟩ := e
      by_cases hm : m = n
      · rw [removeFile, if_pos hm, ih]
        have hm2 : nameStarts pfx m = false := by rw [hm]; exact h
        simp [pfxNames, fileNames, hm2]
      · rw [removeFile, if_neg hm]
        simp only [pfxNames, fileNames, List.map_cons, List.filter_cons]
        simp only [pfxNames, fileNames] at ih
        rw [ih]

theorem pfxNames_removeMany_foreign (pfx : Name) (bad : List Name) :
    ∀ (del : List Name) (fs : Fs),
      (∀ x ∈ del, nameStarts pfx x = false) →
      pfxNames pfx (removeMany bad fs del) = pfxNames pfx fs := by
  intro del
  induction del with
  | nil => intro fs _; rfl
  | cons n del ih =>
      intro fs h
      rw [removeMany]
      by_cases hb : n ∈ bad
      · rw [if_pos hb]
        exact ih fs (fun x hx => h x (List.mem_cons_of_mem n hx))
      · rw [if_neg hb,
          ih _ (fun x hx => h x (List.mem_cons_of_mem n hx))]
        exact pfxNames_removeFile_foreign pfx
          (h n (List.mem_cons_self n del)) fs

/-- Rotating a non-overlapping category leaves this category's name list
unchanged. -/
theorem pfxNames_rotate_foreign (pfx q : Name) (bad : List Name) (fs : Fs)
    (h1 : nameStarts pfx q = false) (h2 : nameStarts q pfx = false) :
    pfxNames pfx (rotate_backups bad q fs) = pfxNames pfx fs := by
  apply pfxNames_removeMany_foreign
  intro x hx
  obtain ⟨hq, _⟩ := mem_drop_sort q fs hx
  obtain ⟨r, rfl⟩ := (nameStarts_iff q x).mp hq
  exact nameStarts_false_of_no_overlap h1 h2 r

/-- A name beyond no retention cut survives the rotation with its content
intact. -/
theorem lookupFile_rotate_survivor (bad : List Name) (pfx : Name)
    (fs : Fs) (n : Name)
    (hnot : n ∉ (sortDesc (pfxNames pfx fs)).drop BACKUP_RETENTION) :
    lookupFile (rotate_backups bad pfx fs) n = lookupFile fs n := by
  rw [lookupFile_rotate]
  rw [if_neg]
  rintro ⟨h1, _⟩
  exact hnot h1

/-- The strict maximum of a category is never beyond the retention cut:
the newest record survives its own rotation. -/
theorem max_not_dropped (pfx : Name) (fs : Fs)
    (hnd : (fileNames fs).Nodup) (n : Name)
    (hmax : ∀ m ∈ pfxNames pfx fs, m ≠ n → nameLt m n = true) :
    n ∉ (sortDesc (pfxNames pfx fs)).drop BACKUP_RETENTION := by
  intro hd
  have hlen : ¬ (sortDesc (pfxNames pfx fs)).length ≤ BACKUP_RETENTION := by
    intro hle
    rw [List.drop_eq_nil_of_le hle] at hd
    cases hd
  have hKlen : ((sortDesc (pfxNames pfx fs)).take BACKUP_RETENTION).length =
      BACKUP_RETENTION := by
    rw [List.length_take]
    omega
  have hKne : (sortDesc (pfxNames pfx fs)).take BACKUP_RETENTION ≠ [] := by
    intro hnil
    rw [hnil] at hKlen
    simp [BACKUP_RETENTION] at hKlen
  obtain ⟨k, hk⟩ := List.exists_mem_of_ne_nil _ hKne
  have hkmem : k ∈ pfxNames pfx fs :=
    (sortDesc_perm _).mem_iff.mp (List.mem_of_mem_take hk)
  have hdisj := (List.nodup_append.mp
    (by
      rw [List.take_append_drop BACKUP_RETENTION
        (sortDesc (pfxNames pfx fs))]
      exact nodup_sortDesc pfx fs hnd)).2.2
  have hkn : k ≠ n := fun heq => hdisj hk (heq ▸ hd)
  have hlt := hmax k hkmem hkn
  have hrel : descOrder k n :=
    pairwise_take_drop (sortDesc_sorted (pfxNames pfx fs))
      BACKUP_RETENTION k hk n hd
  unfold descOrder at hrel
  rw [hrel] at hlt
  cases hlt

/-- The `try: dec_bytes(...) except: raw bytes` fallback inside
`copy_enc` (v21_encrpt.py:379-383). -/
def decOr (key : Nat) (c : FData) : FData :=
  match fernetDecrypt key c with
  | some p => p
  | none => c

theorem decOr_token (key n : Nat) (p : FData) :
    decOr key (FData.token key n p) = p := by
  simp [decOr, fernetDecrypt]

/-- Reading each artifact back through the writes of the persist step. -/
theorem lookup_persist_arts_db (arts : Fs) (A B C : FData) :
    lookupFile (writeFile (writeFile (writeFile arts DB_DUMP_ENC A)
      CSV_ENC B) XLSX_ENC C) DB_DUMP_ENC = some A := by
  rw [lookupFile_writeFile_ne _ _ (by decide),
    lookupFile_writeFile_ne _ _ (by decide), lookupFile_writeFile_self]

theorem lookup_persist_arts_csv (arts : Fs) (A B C : FData) :
    lookupFile (writeFile (writeFile (writeFile arts DB_DUMP_ENC A)
      CSV_ENC B) XLSX_ENC C) CSV_ENC = some B := by
  rw [lookupFile_writeFile_ne _ _ (by decide), lookupFile_writeFile_self]

theorem lookup_persist_arts_xlsx (arts : Fs) (A B C : FData) :
    lookupFile (writeFile (writeFile (writeFile arts DB_DUMP_ENC A)
      CSV_ENC B) XLSX_ENC C) XLSX_ENC = some C :=
  lookupFile_writeFile_self _ _ _

theorem lookup_persist_arts_state (arts : Fs) (A B C : FData) :
    lookupFile (writeFile (writeFile (writeFile arts DB_DUMP_ENC A)
      CSV_ENC B) XLSX_ENC C) STATE_ENC = lookupFile arts STATE_ENC := by
  rw [lookupFile_writeFile_ne _ _ (by decide),
    lookupFile_writeFile_ne _ _ (by decide),
    lookupFile_writeFile_ne _ _ (by decide)]

set_option maxHeartbeats 2000000 in
/-- A clean run of `backup_all` (no I/O write failures, state artifact
present with content `cSt`): the sealed artifacts are refreshed with
nonces `nonce`, `nonce+1`, `nonce+2`, and each category's snapshot is a
fresh sealing (nonces `nonce+3`..`nonce+6`) of the decrypted current
content, written and then rotated, in category order. -/
theorem backup_all_clean (s : Sys) (ts : Ts) (cSt : FData)
    (hA : s.badArt = []) (hB : s.badBak = [])
    (hstate : lookupFile s.arts STATE_ENC = some cSt) :
    backup_all ts s =
      ({ s with
          arts := writeFile (writeFile (writeFile s.arts DB_DUMP_ENC
              (fernetEncrypt s.key s.nonce (FData.raw (dumpOf s.db))))
              CSV_ENC (fernetEncrypt s.key (s.nonce + 1) (FData.raw s.csv)))
              XLSX_ENC (fernetEncrypt s.key (s.nonce + 2)
                (FData.raw (wbOf s.csv)))
          baks := rotate_backups s.badRemove (stateTag ++ [95])
            (writeFile
              (rotate_backups s.badRemove (excelTag ++ [95])
                (writeFile
                  (rotate_backups s.badRemove (csvTag ++ [95])
                    (writeFile
                      (rotate_backups s.badRemove (dbdumpTag ++ [95])
                        (writeFile s.baks (recordName dbdumpTag ts)
                          (fernetEncrypt s.key (s.nonce + 3)
                            (FData.raw (dumpOf s.db)))))
                      (recordName csvTag ts)
                      (fernetEncrypt s.key (s.nonce + 4)
                        (FData.raw s.csv))))
                  (recordName excelTag ts)
                  (fernetEncrypt s.key (s.nonce + 5)
                    (FData.raw (wbOf s.csv)))))
              (recordName stateTag ts)
              (fernetEncrypt s.key (s.nonce + 6) (decOr s.key cSt)))
          nonce := s.nonce + 7 },
        Except.ok ()) := by
  simp only [backup_all, persist_db_dump, persist_csv_and_excel_encrypted,
    copy_enc, write_file_secure_art, write_file_secure_bak, decOr, hA, hB,
    List.not_mem_nil, if_false, ite_false, lookup_persist_arts_db,
    lookup_persist_arts_csv, lookup_persist_arts_xlsx,
    lookup_persist_arts_state, hstate, Option.isSome_some, fernetDecrypt,
    fernetEncrypt, eq_self_iff_true, if_true, ite_true,
    not_false_eq_true]

/-- Membership in a category's name list. -/
theorem mem_pfxNames (pfx : Name) (X : Fs) (m : Name) :
    m ∈ pfxNames pfx X ↔ m ∈ fileNames X ∧ nameStarts pfx m = true :=
  List.mem_filter

/-- A name without the rotated prefix keeps its content across the
rotation. -/
theorem lookupFile_rotate_foreign (bad : List Name) (pfx : Name)
    (fs : Fs) (n : Name) (h : nameStarts pfx n = false) :
    lookupFile (rotate_backups bad pfx fs) n = lookupFile fs n := by
  rw [lookupFile_rotate]
  rw [if_neg]
  rintro ⟨hd, _⟩
  have hp := (mem_drop_sort pfx fs hd).1
  rw [h] at hp
  cases hp

/-- A record of a non-overlapping category never carries this category's
prefix. -/
theorem recordName_foreign {t1 t2 : Name} (ts : Ts)
    (h1 : nameStarts (t1 ++ [95]) (t2 ++ [95]) = false)
    (h2 : nameStarts (t2 ++ [95]) (t1 ++ [95]) = false) :
    nameStarts (t1 ++ [95]) (recordName t2 ts) = false := by
  rw [recordName]
  exact nameStarts_false_of_no_overlap h1 h2 _

/-- Records of non-overlapping categories have distinct names. -/
theorem recordName_ne {t1 t2 : Name} {ts1 ts2 : Ts}
    (h1 : nameStarts (t1 ++ [95]) (t2 ++ [95]) = false)
    (h2 : nameStarts (t2 ++ [95]) (t1 ++ [95]) = false) :
    recordName t1 ts1 ≠ recordName t2 ts2 := by
  intro he
  have hs := recordName_starts t1 ts1
  rw [he] at hs
  have hf := recordName_foreign ts2 h1 h2
  rw [hf] at hs
  cases hs

/-- Writing then rotating a category: a name present afterwards was the
written name or was already there. -/
theorem mem_fileNames_stage (bad : List Name) (q m : Name) (d : FData)
    (fs : Fs) (n : Name)
    (h : n ∈ fileNames (rotate_backups bad q (writeFile fs m d))) :
    n = m ∨ n ∈ fileNames fs := by
  have h1 := ((mem_fileNames_rotate bad q (writeFile fs m d) n).mp h).1
  exact (mem_fileNames_writeFile fs m n d).mp h1

/-- A foreign category's write-then-rotate stage does not change this
category's name list. -/
theorem pfxNames_stage_foreign (pfx q : Name) (bad : List Name)
    (m : Name) (d : FData) (fs : Fs)
    (hm : nameStarts pfx m = false)
    (h1 : nameStarts pfx q = false) (h2 : nameStarts q pfx = false) :
    pfxNames pfx (rotate_backups bad q (writeFile fs m d)) =
      pfxNames pfx fs := by
  rw [pfxNames_rotate_foreign pfx q bad _ h1 h2,
    pfxNames_writeFile_foreign pfx fs d hm]

/-- A foreign category's write-then-rotate stage does not change the
content stored under a name of this category. -/
theorem lookupFile_stage_foreign (q : Name) (bad : List Name) (m : Name)
    (d : FData) (fs : Fs) (n : Name)
    (hq : nameStarts q n = false) (hne : n ≠ m) :
    lookupFile (rotate_backups bad q (writeFile fs m d)) n =
      lookupFile fs n := by
  rw [lookupFile_rotate_foreign bad q _ n hq,
    lookupFile_writeFile_ne fs d hne]

/-- Name lists stay duplicate-free across a write-then-rotate stage. -/
theorem nodup_stage (bad : List Name) (q m : Name) (d : FData) (fs : Fs)
    (hnd : (fileNames fs).Nodup) :
    (fileNames (rotate_backups bad q (writeFile fs m d))).Nodup :=
  nodup_fileNames_rotate bad q _ (nodup_fileNames_writeFile fs m d hnd)

/-- The newly written record of a category, strictly newest by name,
survives the category's own rotation with its content. -/
theorem category_lookup_new (bad : List Name) (pfx n : Name) (c : FData)
    (fs : Fs) (hnd : (fileNames fs).Nodup)
    (hfresh : ∀ m ∈ pfxNames pfx fs, nameLt m n = true) :
    lookupFile (rotate_backups bad pfx (writeFile fs n c)) n = some c := by
  rw [lookupFile_rotate_survivor]
  · exact lookupFile_writeFile_self fs n c
  · apply max_not_dropped pfx (writeFile fs n c)
      (nodup_fileNames_writeFile fs n c hnd) n
    intro m hm hne
    have h2 := (mem_pfxNames pfx _ m).mp hm
    rcases (mem_fileNames_writeFile fs n m c).mp h2.1 with rfl | hmem
    · exact absurd rfl hne
    · exact hfresh m ((mem_pfxNames pfx fs m).mpr ⟨hmem, h2.2⟩)

/-- The survivors of a category's own rotation are exactly the top
`BACKUP_RETENTION` names in descending order, and their number is
exact. -/
theorem rotate_core (pfx : Name) (fs : Fs)
    (hnd : (fileNames fs).Nodup) :
    (∀ m, m ∈ pfxNames pfx (rotate_backups [] pfx fs) ↔
      m ∈ (sortDesc (pfxNames pfx fs)).take BACKUP_RETENTION) ∧
    (pfxNames pfx (rotate_backups [] pfx fs)).length =
      min BACKUP_RETENTION (pfxNames pfx fs).length := by
  have hmem : ∀ m, m ∈ pfxNames pfx (rotate_backups [] pfx fs) ↔
      m ∈ (sortDesc (pfxNames pfx fs)).take BACKUP_RETENTION := by
    intro m
    rw [mem_pfxNames, mem_fileNames_rotate]
    constructor
    · rintro ⟨⟨hmem, hnotd⟩, hpfx⟩
      have hnd2 : m ∉ (sortDesc (pfxNames pfx fs)).drop BACKUP_RETENTION := by
        intro hd
        exact hnotd ⟨hd, List.not_mem_nil m⟩
      have hS : m ∈ sortDesc (pfxNames pfx fs) :=
        (sortDesc_perm _).mem_iff.mpr ((mem_pfxNames pfx fs m).mpr ⟨hmem, hpfx⟩)
      rw [← List.take_append_drop BACKUP_RETENTION
        (sortDesc (pfxNames pfx fs))] at hS
      rcases List.mem_append.mp hS with h | h
      · exact h
      · exact absurd h hnd2
    · intro hK
      have hS : m ∈ sortDesc (pfxNames pfx fs) := List.mem_of_mem_take hK
      have hP := (mem_pfxNames pfx fs m).mp ((sortDesc_perm _).mem_iff.mp hS)
      refine ⟨⟨hP.1, ?_⟩, hP.2⟩
      rintro ⟨hd, _⟩
      have hnodS := nodup_sortDesc pfx fs hnd
      rw [← List.take_append_drop BACKUP_RETENTION
        (sortDesc (pfxNames pfx fs))] at hnodS
      exact (List.nodup_append.mp hnodS).2.2 hK hd
  refine ⟨hmem, ?_⟩
  have hndres : (pfxNames pfx (rotate_backups [] pfx fs)).Nodup :=
    (nodup_fileNames_rotate [] pfx fs hnd).filter _
  have hndK : ((sortDesc (pfxNames pfx fs)).take BACKUP_RETENTION).Nodup :=
    (List.take_sublist _ _).nodup (nodup_sortDesc pfx fs hnd)
  have hperm := (List.perm_ext_iff_of_nodup hndres hndK).mpr hmem
  rw [hperm.length_eq, List.length_take, (sortDesc_perm _).length_eq]

/-- Retention behaviour of one category step (write the new record, then
rotate): the survivor count is exactly the retention bound against the
pool of old records plus the new one, the new record survives, survivors
come from the pool, and every pool member pruned is lexicographically
below every survivor. -/
theorem category_rotation_spec (fs : Fs) (pfx newN : Name) (c : FData)
    (hnd : (fileNames fs).Nodup)
    (hpfx : nameStarts pfx newN = true)
    (hnotin : newN ∉ fileNames fs)
    (hfresh : ∀ m ∈ pfxNames pfx fs, nameLt m newN = true) :
    (pfxNames pfx (rotate_backups [] pfx (writeFile fs newN c))).length =
      min BACKUP_RETENTION ((pfxNames pfx fs).length + 1) ∧
    newN ∈ pfxNames pfx (rotate_backups [] pfx (writeFile fs newN c)) ∧
    (∀ m ∈ pfxNames pfx (rotate_backups [] pfx (writeFile fs newN c)),
      m = newN ∨ m ∈ pfxNames pfx fs) ∧
    (∀ m, (m = newN ∨ m ∈ pfxNames pfx fs) →
      m ∉ pfxNames pfx (rotate_backups [] pfx (writeFile fs newN c)) →
      ∀ k ∈ pfxNames pfx (rotate_backups [] pfx (writeFile fs newN c)),
        nameLt m k = true) := by
  have hndB : (fileNames (writeFile fs newN c)).Nodup :=
    nodup_fileNames_writeFile fs newN c hnd
  have hpool : pfxNames pfx (writeFile fs newN c) =
      pfxNames pfx fs ++ [newN] := by
    unfold pfxNames
    rw [fileNames_writeFile, if_neg hnotin, List.filter_append]
    simp [hpfx]
  have core := rotate_core pfx (writeFile fs newN c) hndB
  have hmax : ∀ m ∈ pfxNames pfx (writeFile fs newN c), m ≠ newN →
      nameLt m newN = true := by
    intro m hm hne
    rw [hpool] at hm
    rcases List.mem_append.mp hm with h | h
    · exact hfresh m h
    · simp at h
      exact absurd h hne
  have hnewS : newN ∈ sortDesc (pfxNames pfx (writeFile fs newN c)) := by
    apply (sortDesc_perm _).mem_iff.mpr
    rw [hpool]
    exact List.mem_append_right _ (by simp)
  have hnewND : newN ∉ (sortDesc (pfxNames pfx
      (writeFile fs newN c))).drop BACKUP_RETENTION :=
    max_not_dropped pfx _ hndB newN hmax
  have hnewK : newN ∈ (sortDesc (pfxNames pfx
      (writeFile fs newN c))).take BACKUP_RETENTION := by
    rw [← List.take_append_drop BACKUP_RETENTION
      (sortDesc (pfxNames pfx (writeFile fs newN c)))] at hnewS
    rcases List.mem_append.mp hnewS with h | h
    · exact h
    · exact absurd h hnewND
  refine ⟨?_, ?_, ?_, ?_⟩
  · rw [core.2, hpool, List.length_append, List.length_singleton]
  · exact (core.1 newN).mpr hnewK
  · intro m hm
    have hK := (core.1 m).mp hm
    have hS := List.mem_of_mem_take hK
    have hp := (sortDesc_perm _).mem_iff.mp hS
    rw [hpool] at hp
    rcases List.mem_append.mp hp with h | h
    · exact Or.inr h
    · simp at h
      exact Or.inl h
  · intro m hmp hmnot k hk
    have hmB : m ∈ pfxNames pfx (writeFile fs newN c) := by
      rw [hpool]
      rcases hmp with rfl | h
      · exact List.mem_append_right _ (by simp)
      · exact List.mem_append_left _ h
    have hmS := (sortDesc_perm
      (pfxNames pfx (writeFile fs newN c))).mem_iff.mpr hmB
    have hmK : m ∉ (sortDesc (pfxNames pfx
        (writeFile fs newN c))).take BACKUP_RETENTION :=
      fun h => hmnot ((core.1 m).mpr h)
    have hmD : m ∈ (sortDesc (pfxNames pfx
        (writeFile fs newN c))).drop BACKUP_RETENTION := by
      rw [← List.take_append_drop BACKUP_RETENTION
        (sortDesc (pfxNames pfx (writeFile fs newN c)))] at hmS
      rcases List.mem_append.mp hmS with h | h
      · exact absurd h hmK
      · exact h
    exact rotate_kept_gt pfx (writeFile fs newN c) hndB k
      ((core.1 k).mp hk) m hmD

/-- `category_rotation_spec` transported along an equality of the
category's pool with a base folder (the folder before the current
`backup_all` call, unchanged for this category by foreign stages). -/
theorem category_final_spec (pfx newN : Name) (c : FData) (B base : Fs)
    (hndB : (fileNames B).Nodup)
    (hEq : pfxNames pfx B = pfxNames pfx base)
    (hnotinB : newN ∉ fileNames B)
    (hpfx : nameStarts pfx newN = true)
    (hfresh : ∀ m ∈ pfxNames pfx base, nameLt m newN = true) :
    (pfxNames pfx (rotate_backups [] pfx (writeFile B newN c))).length =
      min BACKUP_RETENTION ((pfxNames pfx base).length + 1) ∧
    newN ∈ pfxNames pfx (rotate_backups [] pfx (writeFile B newN c)) ∧
    (∀ m ∈ pfxNames pfx (rotate_backups [] pfx (writeFile B newN c)),
      m = newN ∨ m ∈ pfxNames pfx base) ∧
    (∀ m, (m = newN ∨ m ∈ pfxNames pfx base) →
      m ∉ pfxNames pfx (rotate_backups [] pfx (writeFile B newN c)) →
      ∀ k ∈ pfxNames pfx (rotate_backups [] pfx (writeFile B newN c)),
        nameLt m k = true) := by
  have hfreshB : ∀ m ∈ pfxNames pfx B, nameLt m newN = true := by
    rw [hEq]
    exact hfresh
  have spec := category_rotation_spec B pfx newN c hndB hpfx hnotinB hfreshB
  rw [hEq] at spec
  exact spec

/-- C3: after a clean `backup_all` call (writable paths, removable files,
state artifact present, and every existing record of the category older
than the new timestamp), each category retains at most
`BACKUP_RETENTION` records; the retained count is exactly the retention
bound against the pool (previous records plus the new one); the new
record is retained; every retained record comes from that pool; every
pool record pruned is strictly older by timestamp than every retained
record; and two records of one category with equal timestamps have equal
names (the name is a function of tag and timestamp), so the
deterministic name sort keeps the count exact. -/
theorem C3_backup_retention (s : Sys) (ts : Ts) (tag : Name) (cSt : FData)
    (htag : tag ∈ tags4)
    (hA : s.badArt = []) (hB : s.badBak = []) (hR : s.badRemove = [])
    (hnd : (fileNames s.baks).Nodup)
    (hstate : lookupFile s.arts STATE_ENC = some cSt)
    (hfresh : ∀ tg ∈ tags4, ∀ m ∈ pfxNames (tg ++ [95]) s.baks,
      nameLt m (recordName tg ts) = true) :
    (backup_all ts s).2 = Except.ok () ∧
    (pfxNames (tag ++ [95]) ((backup_all ts s).1.baks)).length ≤
      BACKUP_RETENTION ∧
    (pfxNames (tag ++ [95]) ((backup_all ts s).1.baks)).length =
      min BACKUP_RETENTION ((pfxNames (tag ++ [95]) s.baks).length + 1) ∧
    recordName tag ts ∈ pfxNames (tag ++ [95]) ((backup_all ts s).1.baks) ∧
    (∀ m ∈ pfxNames (tag ++ [95]) ((backup_all ts s).1.baks),
      m = recordName tag ts ∨ m ∈ pfxNames (tag ++ [95]) s.baks) ∧
    (∀ m, (m = recordName tag ts ∨ m ∈ pfxNames (tag ++ [95]) s.baks) →
      m ∉ pfxNames (tag ++ [95]) ((backup_all ts s).1.baks) →
      ∀ k ∈ pfxNames (tag ++ [95]) ((backup_all ts s).1.baks),
        ∀ t t' : Ts, t.valid → t'.valid → m = recordName tag t →
          k = recordName tag t' → t.key < t'.key) ∧
    (∀ t1 t2 : Ts, t1.valid → t2.valid →
      recordName tag t1 = recordName tag t2 → t1.key = t2.key) := by
  have hclean := backup_all_clean s ts cSt hA hB hstate
  have hnotin_base : ∀ tg ∈ tags4, recordName tg ts ∉ fileNames s.baks := by
    intro tg htg hmem
    have hx := hfresh tg htg (recordName tg ts)
      ((mem_pfxNames _ _ _).mpr ⟨hmem, recordName_starts tg ts⟩)
    rw [nameLt_irrefl] at hx
    cases hx
  refine ⟨by rw [hclean], ?_⟩
  simp only [hclean, hR]
  simp only [tags4, List.mem_cons, List.not_mem_nil, or_false] at htag
  rcases htag with rfl | rfl | rfl | rfl
  · -- dbdump category
    rw [pfxNames_stage_foreign (dbdumpTag ++ [95]) (stateTag ++ [95]) []
        (recordName stateTag ts) _ _
        (recordName_foreign ts (by decide) (by decide)) (by decide)
        (by decide),
      pfxNames_stage_foreign (dbdumpTag ++ [95]) (excelTag ++ [95]) []
        (recordName excelTag ts) _ _
        (recordName_foreign ts (by decide) (by decide)) (by decide)
        (by decide),
      pfxNames_stage_foreign (dbdumpTag ++ [95]) (csvTag ++ [95]) []
        (recordName csvTag ts) _ _
        (recordName_foreign ts (by decide) (by decide)) (by decide)
        (by decide)]
    have spec := category_final_spec (dbdumpTag ++ [95])
      (recordName dbdumpTag ts)
      (fernetEncrypt s.key (s.nonce + 3) (FData.raw (dumpOf s.db)))
      s.baks s.baks hnd rfl (hnotin_base dbdumpTag (by decide))
      (recordName_starts _ _) (hfresh dbdumpTag (by decide))
    refine ⟨?_, spec.1, spec.2.1, spec.2.2.1, ?_, ?_⟩
    · rw [spec.1]
      exact Nat.min_le_left _ _
    · intro m hmp hmnot k hk t t' hv hv' hm hk'
      subst hm
      subst hk'
      exact (recordName_lt _ hv hv').mp (spec.2.2.2 _ hmp hmnot _ hk)
    · intro t1 t2 h1 h2 he
      exact recordName_inj _ h1 h2 he
  · -- csv category
    rw [pfxNames_stage_foreign (csvTag ++ [95]) (stateTag ++ [95]) []
        (recordName stateTag ts) _ _
        (recordName_foreign ts (by decide) (by decide)) (by decide)
        (by decide),
      pfxNames_stage_foreign (csvTag ++ [95]) (excelTag ++ [95]) []
        (recordName excelTag ts) _ _
        (recordName_foreign ts (by decide) (by decide)) (by decide)
        (by decide)]
    have eBase : pfxNames (csvTag ++ [95])
        (rotate_backups [] (dbdumpTag ++ [95])
          (writeFile s.baks (recordName dbdumpTag ts)
            (fernetEncrypt s.key (s.nonce + 3)
              (FData.raw (dumpOf s.db))))) =
        pfxNames (csvTag ++ [95]) s.baks :=
      pfxNames_stage_foreign _ _ _ _ _ _
        (recordName_foreign ts (by decide) (by decide)) (by decide)
        (by decide)
    have hndB1 := nodup_stage [] (dbdumpTag ++ [95])
      (recordName dbdumpTag ts)
      (fernetEncrypt s.key (s.nonce + 3) (FData.raw (dumpOf s.db)))
      s.baks hnd
    have hnotinB1 : recordName csvTag ts ∉ fileNames
        (rotate_backups [] (dbdumpTag ++ [95])
          (writeFile s.baks (recordName dbdumpTag ts)
            (fernetEncrypt s.key (s.nonce + 3)
              (FData.raw (dumpOf s.db))))) := by
      intro hmem
      rcases mem_fileNames_stage _ _ _ _ _ _ hmem with heq | hmem2
      · exact recordName_ne (by decide) (by decide) heq
      · exact hnotin_base csvTag (by decide) hmem2
    have spec := category_final_spec (csvTag ++ [95])
      (recordName csvTag ts)
      (fernetEncrypt s.key (s.nonce + 4) (FData.raw s.csv))
      _ s.baks hndB1 eBase hnotinB1 (recordName_starts _ _)
      (hfresh csvTag (by decide))
    refine ⟨?_, spec.1, spec.2.1, spec.2.2.1, ?_, ?_⟩
    · rw [spec.1]
      exact Nat.min_le_left _ _
    · intro m hmp hmnot k hk t t' hv hv' hm hk'
      subst hm
      subst hk'
      exact (recordName_lt _ hv hv').mp (spec.2.2.2 _ hmp hmnot _ hk)
    · intro t1 t2 h1 h2 he
      exact recordName_inj _ h1 h2 he
  · -- excel category
    rw [pfxNames_stage_foreign (excelTag ++ [95]) (stateTag ++ [95]) []
        (recordName stateTag ts) _ _
        (recordName_foreign ts (by decide) (by decide)) (by decide)
        (by decide)]
    have eBase : pfxNames (excelTag ++ [95])
        (rotate_backups [] (csvTag ++ [95])
          (writeFile
            (rotate_backups [] (dbdumpTag ++ [95])
              (writeFile s.baks (recordName dbdumpTag ts)
                (fernetEncrypt s.key (s.nonce + 3)
                  (FData.raw (dumpOf s.db)))))
            (recordName csvTag ts)
            (fernetEncrypt s.key (s.nonce + 4) (FData.raw s.csv)))) =
        pfxNames (excelTag ++ [95]) s.baks := by
      rw [pfxNames_stage_foreign (excelTag ++ [95]) (csvTag ++ [95]) []
          (recordName csvTag ts) _ _
          (recordName_foreign ts (by decide) (by decide)) (by decide)
          (by decide),
        pfxNames_stage_foreign (excelTag ++ [95]) (dbdumpTag ++ [95]) []
          (recordName dbdumpTag ts) _ _
          (recordName_foreign ts (by decide) (by decide)) (by decide)
          (by decide)]
    have hndB2 := nodup_stage [] (csvTag ++ [95]) (recordName csvTag ts)
      (fernetEncrypt s.key (s.nonce + 4) (FData.raw s.csv)) _
      (nodup_stage [] (dbdumpTag ++ [95]) (recordName dbdumpTag ts)
        (fernetEncrypt s.key (s.nonce + 3) (FData.raw (dumpOf s.db)))
        s.baks hnd)
    have hnotinB2 : recordName excelTag ts ∉ fileNames
        (rotate_backups [] (csvTag ++ [95])
          (writeFile
            (rotate_backups [] (dbdumpTag ++ [95])
              (writeFile s.baks (recordName dbdumpTag ts)
                (fernetEncrypt s.key (s.nonce + 3)
                  (FData.raw (dumpOf s.db)))))
            (recordName csvTag ts)
            (fernetEncrypt s.key (s.nonce + 4) (FData.raw s.csv)))) := by
      intro hmem
      rcases mem_fileNames_stage _ _ _ _ _ _ hmem with heq | hmem2
      · exact recordName_ne (by decide) (by decide) heq
      · rcases mem_fileNames_stage _ _ _ _ _ _ hmem2 with heq | hmem3
        · exact recordName_ne (by decide) (by decide) heq
        · exact hnotin_base excelTag (by decide) hmem3
    have spec := category_final_spec (excelTag ++ [95])
      (recordName excelTag ts)
      (fernetEncrypt s.key (s.nonce + 5) (FData.raw (wbOf s.csv)))
      _ s.baks hndB2 eBase hnotinB2 (recordName_starts _ _)
      (hfresh excelTag (by decide))
    refine ⟨?_, spec.1, spec.2.1, spec.2.2.1, ?_, ?_⟩
    · rw [spec.1]
      exact Nat.min_le_left _ _
    · intro m hmp hmnot k hk t t' hv hv' hm hk'
      subst hm
      subst hk'
      exact (recordName_lt _ hv hv').mp (spec.2.2.2 _ hmp hmnot _ hk)
    · intro t1 t2 h1 h2 he
      exact recordName_inj _ h1 h2 he
  · -- state category
    have eBase : pfxNames (stateTag ++ [95])
        (rotate_backups [] (excelTag ++ [95])
          (writeFile
            (rotate_backups [] (csvTag ++ [95])
              (writeFile
                (rotate_backups [] (dbdumpTag ++ [95])
                  (writeFile s.baks (recordName dbdumpTag ts)
                    (fernetEncrypt s.key (s.nonce + 3)
                      (FData.raw (dumpOf s.db)))))
                (recordName csvTag ts)
                (fernetEncrypt s.key (s.nonce + 4) (FData.raw s.csv))))
            (recordName excelTag ts)
            (fernetEncrypt s.key (s.nonce + 5)
              (FData.raw (wbOf s.csv))))) =
        pfxNames (stateTag ++ [95]) s.baks := by
      rw [pfxNames_stage_foreign (stateTag ++ [95]) (excelTag ++ [95]) []
          (recordName excelTag ts) _ _
          (recordName_foreign ts (by decide) (by decide)) (by decide)
          (by decide),
        pfxNames_stage_foreign (stateTag ++ [95]) (csvTag ++ [95]) []
          (recordName csvTag ts) _ _
          (recordName_foreign ts (by decide) (by decide)) (by decide)
          (by decide),
        pfxNames_stage_foreign (stateTag ++ [95]) (dbdumpTag ++ [95]) []
          (recordName dbdumpTag ts) _ _
          (recordName_foreign ts (by decide) (by decide)) (by decide)
          (by decide)]
    have hndB3 := nodup_stage [] (excelTag ++ [95])
      (recordName excelTag ts)
      (fernetEncrypt s.key (s.nonce + 5) (FData.raw (wbOf s.csv))) _
      (nodup_stage [] (csvTag ++ [95]) (recordName csvTag ts)
        (fernetEncrypt s.key (s.nonce + 4) (FData.raw s.csv)) _
        (nodup_stage [] (dbdumpTag ++ [95]) (recordName dbdumpTag ts)
          (fernetEncrypt s.key (s.nonce + 3) (FData.raw (dumpOf s.db)))
          s.baks hnd))
    have hnotinB3 : recordName stateTag ts ∉ fileNames
        (rotate_backups [] (excelTag ++ [95])
          (writeFile
            (rotate_backups [] (csvTag ++ [95])
              (writeFile
                (rotate_backups [] (dbdumpTag ++ [95])
                  (writeFile s.baks (recordName dbdumpTag ts)
                    (fernetEncrypt s.key (s.nonce + 3)
                      (FData.raw (dumpOf s.db)))))
                (recordName csvTag ts)
                (fernetEncrypt s.key (s.nonce + 4) (FData.raw s.csv))))
            (recordName excelTag ts)
            (fernetEncrypt s.key (s.nonce + 5)
              (FData.raw (wbOf s.csv))))) := by
      intro hmem
      rcases mem_fileNames_stage _ _ _ _ _ _ hmem with heq | hmem2
      · exact recordName_ne (by decide) (by decide) heq
      · rcases mem_fileNames_stage _ _ _ _ _ _ hmem2 with heq | hmem3
        · exact recordName_ne (by decide) (by decide) heq
        · rcases mem_fileNames_stage _ _ _ _ _ _ hmem3 with heq | hmem4
          · exact recordName_ne (by decide) (by decide) heq
          · exact hnotin_base stateTag (by decide) hmem4
    have spec := category_final_spec (stateTag ++ [95])
      (recordName stateTag ts)
      (fernetEncrypt s.key (s.nonce + 6) (decOr s.key cSt))
      _ s.baks hndB3 eBase hnotinB3 (recordName_starts _ _)
      (hfresh stateTag (by decide))
    refine ⟨?_, spec.1, spec.2.1, spec.2.2.1, ?_, ?_⟩
    · rw [spec.1]
      exact Nat.min_le_left _ _
    · intro m hmp hmnot k hk t t' hv hv' hm hk'
      subst hm
      subst hk'
      exact (recordName_lt _ hv hv').mp (spec.2.2.2 _ hmp hmnot _ hk)
    · intro t1 t2 h1 h2 he
      exact recordName_inj _ h1 h2 he

/-- A small concrete state for exercising the retention theorem: one old
dbdump record, state artifact present, clean I/O. -/
def c3Sys : Sys :=
  { arts := [(STATE_ENC, FData.raw "st")]
    baks := [(recordName dbdumpTag ⟨2025, 6, 1, 0, 0, 0⟩, FData.raw "old")]
    db := ["r"]
    csv := "c"
    key := 1
    nonce := 10
    badArt := []
    badBak := []
    badRemove := [] }

/-- The timestamp of the exercised `backup_all` call. -/
def c3Ts : Ts := ⟨2025, 6, 2, 3, 4, 5⟩

/-- Witness for C3, at the dbdump category of `c3Sys`. -/
theorem C3_backup_retention_witness :
    (backup_all c3Ts c3Sys).2 = Except.ok () ∧
    (pfxNames (dbdumpTag ++ [95])
      ((backup_all c3Ts c3Sys).1.baks)).length ≤ BACKUP_RETENTION ∧
    (pfxNames (dbdumpTag ++ [95])
      ((backup_all c3Ts c3Sys).1.baks)).length =
      min BACKUP_RETENTION
        ((pfxNames (dbdumpTag ++ [95]) c3Sys.baks).length + 1) ∧
    recordName dbdumpTag c3Ts ∈
      pfxNames (dbdumpTag ++ [95]) ((backup_all c3Ts c3Sys).1.baks) ∧
    (∀ m ∈ pfxNames (dbdumpTag ++ [95]) ((backup_all c3Ts c3Sys).1.baks),
      m = recordName dbdumpTag c3Ts ∨
        m ∈ pfxNames (dbdumpTag ++ [95]) c3Sys.baks) ∧
    (∀ m, (m = recordName dbdumpTag c3Ts ∨
        m ∈ pfxNames (dbdumpTag ++ [95]) c3Sys.baks) →
      m ∉ pfxNames (dbdumpTag ++ [95]) ((backup_all c3Ts c3Sys).1.baks) →
      ∀ k ∈ pfxNames (dbdumpTag ++ [95]) ((backup_all c3Ts c3Sys).1.baks),
        ∀ t t' : Ts, t.valid → t'.valid → m = recordName dbdumpTag t →
          k = recordName dbdumpTag t' → t.key < t'.key) ∧
    (∀ t1 t2 : Ts, t1.valid → t2.valid →
      recordName dbdumpTag t1 = recordName dbdumpTag t2 →
      t1.key = t2.key) :=
  C3_backup_retention c3Sys c3Ts dbdumpTag (FData.raw "st") (by decide)
    rfl rfl rfl (by decide) (by decide) (by decide)

set_option maxHeartbeats 2000000 in
/-- C6 as amended: with writable output paths, `backup_all` always
completes and reports success, whatever the removal-failure set and
whether or not the stored artifacts decrypt (a source that fails
decryption is copied raw; a record whose deletion fails is skipped); so
decryption failures and deletion failures are isolated per category and
never propagate.  (A *write* failure, by contrast, propagates — see the
counterexample.) -/
theorem C6_backup_nonfatal (s : Sys) (ts : Ts)
    (hA : s.badArt = []) (hB : s.badBak = []) :
    (backup_all ts s).2 = Except.ok () := by
  cases hst : lookupFile s.arts STATE_ENC with
  | some cSt => rw [backup_all_clean s ts cSt hA hB hst]
  | none =>
      simp only [backup_all, persist_db_dump,
        persist_csv_and_excel_encrypted, copy_enc, write_file_secure_art,
        write_file_secure_bak, decOr, hA, hB, List.not_mem_nil, if_false,
        ite_false, lookup_persist_arts_db, lookup_persist_arts_csv,
        lookup_persist_arts_xlsx, lookup_persist_arts_state, hst,
        Option.isSome_none, fernetDecrypt, fernetEncrypt,
        eq_self_iff_true, if_true, ite_true, not_false_eq_true,
        Bool.false_eq_true]

/-- A state whose artifacts do not decrypt (raw bytes under every sealed
path after bootstrap is modelled unchanged) and whose dbdump record
cannot be deleted: `backup_all` still succeeds. -/
def c6Sys : Sys :=
  { arts := [(STATE_ENC, FData.raw "junk")]
    baks := [(recordName dbdumpTag ⟨2025, 6, 1, 0, 0, 0⟩, FData.raw "old")]
    db := ["r"]
    csv := "c"
    key := 1
    nonce := 10
    badArt := []
    badBak := []
    badRemove := [recordName dbdumpTag ⟨2025, 6, 1, 0, 0, 0⟩] }

/-- Witness for the amended C6: removal failures and undecryptable
sources do not make `backup_all` fail. -/
theorem C6_backup_nonfatal_witness :
    (backup_all c3Ts c6Sys).2 = Except.ok () :=
  C6_backup_nonfatal c6Sys c3Ts rfl rfl

/-- A state whose dbdump backup record path is unwritable. -/
def c6BadSys : Sys :=
  { arts := [(STATE_ENC, FData.raw "st")]
    baks := []
    db := ["r"]
    csv := "c"
    key := 1
    nonce := 10
    badArt := []
    badBak := [recordName dbdumpTag c3Ts]
    badRemove := [] }

/-- C6 counterexample: a failure sealing the dbdump category's record to
disk propagates out of `backup_all` as an error, and the csv, excel and
state categories are never attempted (no record of theirs is created),
refuting both halves of the claim at a concrete input. -/
theorem C6_counterexample :
    (backup_all c3Ts c6BadSys).2 = Except.error Err.ioError ∧
    lookupFile (backup_all c3Ts c6BadSys).1.baks
      (recordName csvTag c3Ts) = none ∧
    lookupFile (backup_all c3Ts c6BadSys).1.baks
      (recordName excelTag c3Ts) = none ∧
    lookupFile (backup_all c3Ts c6BadSys).1.baks
      (recordName stateTag c3Ts) = none :=
  ⟨rfl, by decide, by decide, by decide⟩

/-- C8: on a clean `backup_all` run, each category's new timestamped
record holds a fresh sealing — an encryption, under a nonce drawn during
this call, of the plaintext that the current sealed source artifact
decrypts to — and not a byte copy of the source's sealed bytes (the
nonces differ, so the ciphertexts differ).  For the dbdump, csv and
workbook categories that plaintext is the just-persisted current content
of the database dump, the tabular export and the workbook; for the state
category it is whatever the stored state artifact decrypts to. -/
theorem C8_backup_reseals (s : Sys) (ts : Ts) (cSt : FData)
    (hA : s.badArt = []) (hB : s.badBak = [])
    (hnd : (fileNames s.baks).Nodup)
    (hstate : lookupFile s.arts STATE_ENC = some cSt)
    (hfresh : ∀ tg ∈ tags4, ∀ m ∈ pfxNames (tg ++ [95]) s.baks,
      nameLt m (recordName tg ts) = true) :
    (lookupFile (backup_all ts s).1.baks (recordName dbdumpTag ts) =
        some (fernetEncrypt s.key (s.nonce + 3)
          (FData.raw (dumpOf s.db))) ∧
      lookupFile (backup_all ts s).1.arts DB_DUMP_ENC =
        some (fernetEncrypt s.key s.nonce (FData.raw (dumpOf s.db))) ∧
      fernetDecrypt s.key
          (fernetEncrypt s.key s.nonce (FData.raw (dumpOf s.db))) =
        some (FData.raw (dumpOf s.db)) ∧
      fernetEncrypt s.key (s.nonce + 3) (FData.raw (dumpOf s.db)) ≠
        fernetEncrypt s.key s.nonce (FData.raw (dumpOf s.db))) ∧
    (lookupFile (backup_all ts s).1.baks (recordName csvTag ts) =
        some (fernetEncrypt s.key (s.nonce + 4) (FData.raw s.csv)) ∧
      lookupFile (backup_all ts s).1.arts CSV_ENC =
        some (fernetEncrypt s.key (s.nonce + 1) (FData.raw s.csv)) ∧
      fernetDecrypt s.key
          (fernetEncrypt s.key (s.nonce + 1) (FData.raw s.csv)) =
        some (FData.raw s.csv) ∧
      fernetEncrypt s.key (s.nonce + 4) (FData.raw s.csv) ≠
        fernetEncrypt s.key (s.nonce + 1) (FData.raw s.csv)) ∧
    (lookupFile (backup_all ts s).1.baks (recordName excelTag ts) =
        some (fernetEncrypt s.key (s.nonce + 5)
          (FData.raw (wbOf s.csv))) ∧
      lookupFile (backup_all ts s).1.arts XLSX_ENC =
        some (fernetEncrypt s.key (s.nonce + 2)
          (FData.raw (wbOf s.csv))) ∧
      fernetDecrypt s.key
          (fernetEncrypt s.key (s.nonce + 2) (FData.raw (wbOf s.csv))) =
        some (FData.raw (wbOf s.csv)) ∧
      fernetEncrypt s.key (s.nonce + 5) (FData.raw (wbOf s.csv)) ≠
        fernetEncrypt s.key (s.nonce + 2) (FData.raw (wbOf s.csv))) ∧
    (lookupFile (backup_all ts s).1.baks (recordName stateTag ts) =
        some (fernetEncrypt s.key (s.nonce + 6) (decOr s.key cSt)) ∧
      ∀ ns pSt, cSt = FData.token s.key ns pSt →
        fernetDecrypt s.key cSt = some pSt ∧
        decOr s.key cSt = pSt ∧
        (ns ≠ s.nonce + 6 →
          fernetEncrypt s.key (s.nonce + 6) (decOr s.key cSt) ≠ cSt)) := by
  have hclean := backup_all_clean s ts cSt hA hB hstate
  simp only [hclean]
  have eBaseCsv : pfxNames (csvTag ++ [95])
      (rotate_backups s.badRemove (dbdumpTag ++ [95])
        (writeFile s.baks (recordName dbdumpTag ts)
          (fernetEncrypt s.key (s.nonce + 3)
            (FData.raw (dumpOf s.db))))) =
      pfxNames (csvTag ++ [95]) s.baks :=
    pfxNames_stage_foreign _ _ _ _ _ _
      (recordName_foreign ts (by decide) (by decide)) (by decide)
      (by decide)
  have eBaseEx : pfxNames (excelTag ++ [95])
      (rotate_backups s.badRemove (csvTag ++ [95])
        (writeFile
          (rotate_backups s.badRemove (dbdumpTag ++ [95])
            (writeFile s.baks (recordName dbdumpTag ts)
              (fernetEncrypt s.key (s.nonce + 3)
                (FData.raw (dumpOf s.db)))))
          (recordName csvTag ts)
          (fernetEncrypt s.key (s.nonce + 4) (FData.raw s.csv)))) =
      pfxNames (excelTag ++ [95]) s.baks := by
    rw [pfxNames_stage_foreign (excelTag ++ [95]) (csvTag ++ [95])
        s.badRemove (recordName csvTag ts) _ _
        (recordName_foreign ts (by decide) (by decide)) (by decide)
        (by decide),
      pfxNames_stage_foreign (excelTag ++ [95]) (dbdumpTag ++ [95])
        s.badRemove (recordName dbdumpTag ts) _ _
        (recordName_foreign ts (by decide) (by decide)) (by decide)
        (by decide)]
  have eBaseSt : pfxNames (stateTag ++ [95])
      (rotate_backups s.badRemove (excelTag ++ [95])
        (writeFile
          (rotate_backups s.badRemove (csvTag ++ [95])
            (writeFile
              (rotate_backups s.badRemove (dbdumpTag ++ [95])
                (writeFile s.baks (recordName dbdumpTag ts)
                  (fernetEncrypt s.key (s.nonce + 3)
                    (FData.raw (dumpOf s.db)))))
              (recordName csvTag ts)
              (fernetEncrypt s.key (s.nonce + 4) (FData.raw s.csv))))
          (recordName excelTag ts)
          (fernetEncrypt s.key (s.nonce + 5)
            (FData.raw (wbOf s.csv))))) =
      pfxNames (stateTag ++ [95]) s.baks := by
    rw [pfxNames_stage_foreign (stateTag ++ [95]) (excelTag ++ [95])
        s.badRemove (recordName excelTag ts) _ _
        (recordName_foreign ts (by decide) (by decide)) (by decide)
        (by decide),
      pfxNames_stage_foreign (stateTag ++ [95]) (csvTag ++ [95])
        s.badRemove (recordName csvTag ts) _ _
        (recordName_foreign ts (by decide) (by decide)) (by decide)
        (by decide),
      pfxNames_stage_foreign (stateTag ++ [95]) (dbdumpTag ++ [95])
        s.badRemove (recordName dbdumpTag ts) _ _
        (recordName_foreign ts (by decide) (by decide)) (by decide)
        (by decide)]
  have hndB1 := nodup_stage s.badRemove (dbdumpTag ++ [95])
    (recordName dbdumpTag ts)
    (fernetEncrypt s.key (s.nonce + 3) (FData.raw (dumpOf s.db)))
    s.baks hnd
  have hndB2 := nodup_stage s.badRemove (csvTag ++ [95])
    (recordName csvTag ts)
    (fernetEncrypt s.key (s.nonce + 4) (FData.raw s.csv)) _ hndB1
  have hndB3 := nodup_stage s.badRemove (excelTag ++ [95])
    (recordName excelTag ts)
    (fernetEncrypt s.key (s.nonce + 5) (FData.raw (wbOf s.csv))) _ hndB2
  refine ⟨⟨?_, ?_, ?_, ?_⟩, ⟨?_, ?_, ?_, ?_⟩, ⟨?_, ?_, ?_, ?_⟩,
    ⟨?_, ?_⟩⟩
  · rw [lookupFile_stage_foreign (stateTag ++ [95]) s.badRemove
        (recordName stateTag ts) _ _ _
        (recordName_foreign ts (by decide) (by decide))
        (recordName_ne (by decide) (by decide)),
      lookupFile_stage_foreign (excelTag ++ [95]) s.badRemove
        (recordName excelTag ts) _ _ _
        (recordName_foreign ts (by decide) (by decide))
        (recordName_ne (by decide) (by decide)),
      lookupFile_stage_foreign (csvTag ++ [95]) s.badRemove
        (recordName csvTag ts) _ _ _
        (recordName_foreign ts (by decide) (by decide))
        (recordName_ne (by decide) (by decide)),
      category_lookup_new s.badRemove (dbdumpTag ++ [95]) _ _ s.baks hnd
        (hfresh dbdumpTag (by decide))]
  · exact lookup_persist_arts_db _ _ _ _
  · simp [fernetEncrypt, fernetDecrypt]
  · intro h
    simp only [fernetEncrypt, FData.token.injEq, true_and, and_true] at h
    omega
  · rw [lookupFile_stage_foreign (stateTag ++ [95]) s.badRemove
        (recordName stateTag ts) _ _ _
        (recordName_foreign ts (by decide) (by decide))
        (recordName_ne (by decide) (by decide)),
      lookupFile_stage_foreign (excelTag ++ [95]) s.badRemove
        (recordName excelTag ts) _ _ _
        (recordName_foreign ts (by decide) (by decide))
        (recordName_ne (by decide) (by decide)),
      category_lookup_new s.badRemove (csvTag ++ [95]) _ _ _ hndB1
        (by rw [eBaseCsv]; exact hfresh csvTag (by decide))]
  · exact lookup_persist_arts_csv _ _ _ _
  · simp [fernetEncrypt, fernetDecrypt]
  · intro h
    simp only [fernetEncrypt, FData.token.injEq, true_and, and_true] at h
    omega
  · rw [lookupFile_stage_foreign (stateTag ++ [95]) s.badRemove
        (recordName stateTag ts) _ _ _
        (recordName_foreign ts (by decide) (by decide))
        (recordName_ne (by decide) (by decide)),
      category_lookup_new s.badRemove (excelTag ++ [95]) _ _ _ hndB2
        (by rw [eBaseEx]; exact hfresh excelTag (by decide))]
  · exact lookup_persist_arts_xlsx _ _ _ _
  · simp [fernetEncrypt, fernetDecrypt]
  · intro h
    simp only [fernetEncrypt, FData.token.injEq, true_and, and_true] at h
    omega
  · rw [category_lookup_new s.badRemove (stateTag ++ [95]) _ _ _ hndB3
      (by rw [eBaseSt]; exact hfresh stateTag (by decide))]
  · intro ns pSt hcs
    subst hcs
    refine ⟨by simp [fernetDecrypt], decOr_token _ _ _, ?_⟩
    intro hns
    rw [decOr_token]
    intro h
    simp only [fernetEncrypt, FData.token.injEq, true_and, and_true] at h
    exact hns h.symm

/-- Witness for C8: on the concrete state, the new dbdump record is a
sealing of the current dump content under the nonce drawn at backup
time, and differs from the sealed source bytes. -/
theorem C8_backup_reseals_witness :
    lookupFile (backup_all c3Ts c3Sys).1.baks
        (recordName dbdumpTag c3Ts) =
      some (fernetEncrypt c3Sys.key (c3Sys.nonce + 3)
        (FData.raw (dumpOf c3Sys.db))) ∧
    fernetEncrypt c3Sys.key (c3Sys.nonce + 3)
        (FData.raw (dumpOf c3Sys.db)) ≠
      fernetEncrypt c3Sys.key c3Sys.nonce (FData.raw (dumpOf c3Sys.db)) :=
  ⟨(C8_backup_reseals c3Sys c3Ts (FData.raw "st") rfl rfl (by decide)
      (by decide) (by decide)).1.1,
   (C8_backup_reseals c3Sys c3Ts (FData.raw "st") rfl rfl (by decide)
      (by decide) (by decide)).1.2.2.2⟩
